import Mathlib

/-!
Verification development for the focode crawler/exporter (`parser.py`).

The Python source is shallowly embedded: pure helper functions become Lean
functions on `List Char` / `String`, the mutable frontier (queue, seen-set)
becomes explicit state passing, exceptions become `Option`/`Except`, and the
external collaborators (HTTP fetch, XML parse, robots oracle, the compiled
path regex, `urljoin`) are function parameters, exactly at the interface the
source consumes them.
-/

namespace Focode

/-! ## Character classes and low-level list utilities -/

/-- Horizontal whitespace, the character class `[ \t\r\f\v]` of the first
substitution in `normalize_ws`. -/
def isHWS (c : Char) : Bool :=
  c == ' ' || c == '\t' || c == '\r' || c == Char.ofNat 12 || c == Char.ofNat 11

/-- Whitespace as stripped by Python's `str.strip()` (ASCII portion). -/
def isPyWS (c : Char) : Bool :=
  c == ' ' || c == '\t' || c == '\n' || c == '\r' || c == Char.ofNat 12 || c == Char.ofNat 11

/-- Replace every maximal run of horizontal whitespace by a single space:
the effect of `re.sub(r"[ \t\r\f\v]+", " ", s)`. All but the last character
of a run are dropped and the survivor becomes `' '`. -/
def collapseH : List Char → List Char
  | [] => []
  | [c] => if isHWS c then [' '] else [c]
  | a :: b :: r =>
    if isHWS a && isHWS b then collapseH (b :: r)
    else (if isHWS a then ' ' else a) :: collapseH (b :: r)

/-- Replace every run of three or more newlines by exactly two: the effect of
`re.sub(r"\n{3,}", "\n\n", s)`. While the window holds three newlines the
first is dropped. -/
def collapseNL : List Char → List Char
  | a :: b :: c :: r =>
    if a == '\n' && b == '\n' && c == '\n' then collapseNL (b :: c :: r)
    else a :: collapseNL (b :: c :: r)
  | l => l

/-- Drop the trailing characters satisfying `p` (the right half of a strip). -/
def dropTrailIf (p : Char → Bool) : List Char → List Char
  | [] => []
  | c :: cs =>
    let r := dropTrailIf p cs
    if r.isEmpty && p c then [] else c :: r

/-- Strip characters satisfying `p` from both ends, as Python `str.strip`. -/
def stripBy (p : Char → Bool) (l : List Char) : List Char :=
  dropTrailIf p (l.dropWhile p)

/-- Python `s.strip()` on character lists. -/
def pyStripChars (l : List Char) : List Char := stripBy isPyWS l

/-- Python `s.strip()` on strings. -/
def pyStrip (s : String) : String := String.mk (pyStripChars s.data)

/-- The whitespace normalizer of the source:
collapse horizontal-whitespace runs to one space, collapse three or more
consecutive newlines to two, then strip both ends (`normalize_ws`). -/
def normalize_ws (s : String) : String :=
  String.mk (pyStripChars (collapseNL (collapseH s.data)))

/-! ## Normal-form predicates used to prove idempotence of `normalize_ws` -/

/-- No two adjacent horizontal-whitespace characters. -/
def noHH : List Char → Bool
  | a :: b :: r => !(isHWS a && isHWS b) && noHH (b :: r)
  | _ => true

/-- Every horizontal-whitespace character is a plain space. -/
def hwsSpace : List Char → Bool
  | [] => true
  | c :: cs => (!isHWS c || c == ' ') && hwsSpace cs

/-- No three adjacent newline characters. -/
def noTriple : List Char → Bool
  | a :: b :: c :: r => !(a == '\n' && b == '\n' && c == '\n') && noTriple (b :: c :: r)
  | _ => true

/-- The first character, if any, does not satisfy `p`. -/
def noLeadB (p : Char → Bool) : List Char → Bool
  | [] => true
  | c :: _ => !p c

/-- The last character, if any, does not satisfy `p`. -/
def noTrailB (p : Char → Bool) : List Char → Bool
  | [] => true
  | [c] => !p c
  | _ :: cs => noTrailB p cs

/-! ## Date parsing from slugs (`parse_date_from_slug`) -/

/-- Numeric value of an ASCII digit character. -/
def digitVal (c : Char) : Nat := c.toNat - 48

/-- Leftmost window of six consecutive ASCII digits, the match of
`re.search(r"(\d{2})(\d{2})(\d{2})", slug)`. -/
def firstSixDigits : List Char → Option (List Char)
  | [] => none
  | c :: cs =>
    let w := (c :: cs).take 6
    if w.length == 6 && w.all Char.isDigit then some w else firstSixDigits cs

/-- Gregorian leap-year rule, as used by Python's `datetime.date`. -/
def isLeap (y : Nat) : Bool := y % 4 == 0 && (y % 100 != 0 || y % 400 == 0)

/-- Length of a month, as used by Python's `datetime.date`. -/
def daysInMonth (y m : Nat) : Nat :=
  if m == 2 then (if isLeap y then 29 else 28)
  else if m == 4 || m == 6 || m == 9 || m == 11 then 30
  else 31

/-- Python `date(year, month, day)` succeeds iff these bounds hold
(`MINYEAR = 1`, `MAXYEAR = 9999`); otherwise it raises `ValueError`. -/
def validDate (y m d : Nat) : Bool :=
  1 ≤ y && y ≤ 9999 && 1 ≤ m && m ≤ 12 && 1 ≤ d && d ≤ daysInMonth y m

/-- Two-digit zero-padded decimal rendering. -/
def pad2 (n : Nat) : List Char :=
  [Char.ofNat (48 + n / 10 % 10), Char.ofNat (48 + n % 10)]

/-- Python `date.isoformat()` for the four-digit years this program produces
(all its years lie in 1900..2069): `YYYY-MM-DD`, zero padded. -/
def isoDate (y m d : Nat) : String :=
  String.mk ([Char.ofNat (48 + y / 1000 % 10), Char.ofNat (48 + y / 100 % 10),
    Char.ofNat (48 + y / 10 % 10), Char.ofNat (48 + y % 10)]
    ++ '-' :: pad2 m ++ '-' :: pad2 d)

/-- The source's `parse_date_from_slug`: find the first six consecutive
digits, read them as DDMMYY, widen YY with a 1970 pivot, and return the ISO
date when the calendar accepts it. -/
def parse_date_from_slug (slug : String) : Option String :=
  match firstSixDigits slug.data with
  | none => none
  | some w =>
    match w with
    | [a, b, c, d, e, f] =>
      let dd := 10 * digitVal a + digitVal b
      let mm := 10 * digitVal c + digitVal d
      let yy := 10 * digitVal e + digitVal f
      let year := if yy < 70 then 2000 + yy else 1900 + yy
      if validDate year mm dd then some (isoDate year mm dd) else none
    | _ => none

/-! ## URL primitives (the `urllib.parse` functions the source uses) -/

/-- ASCII lowering, as Python `str.lower()` on the ASCII range. -/
def charLower (c : Char) : Char :=
  if 'A' ≤ c && c ≤ 'Z' then Char.ofNat (c.toNat + 32) else c

/-- String version of `charLower`. -/
def strLower (s : String) : String := String.mk (s.data.map charLower)

/-- Components produced by `urllib.parse.urlparse`. -/
structure UrlParts where
  scheme : String
  netloc : String
  path : String
  query : String
  fragment : String
deriving Repr, DecidableEq

/-- Split at the first occurrence of `sep`: the part before it and, when the
separator occurs, the part after it. -/
def splitFirst (sep : Char) : List Char → List Char × Option (List Char)
  | [] => ([], none)
  | c :: cs =>
    if c == sep then ([], some cs)
    else
      let r := splitFirst sep cs
      (c :: r.1, r.2)

/-- Characters allowed after the first position of a URL scheme. -/
def isSchemeChar (c : Char) : Bool :=
  c.isAlpha || c.isDigit || c == '+' || c == '-' || c == '.'

/-- Parse of the fragment-free part of a URL: scheme (lowered, only when the
prefix before the first `:` is a valid scheme), then `//netloc` up to the
next `/`, `?` or `#`, then path up to `?`, then query. Models the behavior
of `urllib.parse.urlparse` on the absolute and relative HTTP URLs this
crawler handles. -/
def parseNoFrag (bf : List Char) : String × String × String × String :=
  let sr :=
    match splitFirst ':' bf with
    | (pre, some post) =>
      if (match pre with | p0 :: _ => p0.isAlpha | [] => false) && pre.all isSchemeChar
      then (pre.map charLower, post)
      else ([], bf)
    | (_, none) => ([], bf)
  let na :=
    match sr.2 with
    | '/' :: '/' :: r2 =>
      (r2.takeWhile (fun c => !(c == '/' || c == '?' || c == '#')),
        r2.dropWhile (fun c => !(c == '/' || c == '?' || c == '#')))
    | other => ([], other)
  let pq := splitFirst '?' na.2
  (String.mk sr.1, String.mk na.1, String.mk pq.1, String.mk (pq.2.getD []))

/-- The `urlparse` collaborator on character lists. -/
def parseUrlChars (l : List Char) : UrlParts :=
  let sp := splitFirst '#' l
  let q := parseNoFrag sp.1
  ⟨q.1, q.2.1, q.2.2.1, q.2.2.2, String.mk (sp.2.getD [])⟩

/-- The `urlparse` collaborator on strings. -/
def urlparse (s : String) : UrlParts := parseUrlChars s.data

/-- Defragmentation `urldefrag(u)[0]`: everything before the first `#`. -/
def urldefrag0 (s : String) : String :=
  String.mk (s.data.takeWhile (fun c => !(c == '#')))

/-- The source's `same_site`: hosts compared case-insensitively. -/
def same_site (a b : String) : Bool :=
  strLower (urlparse a).netloc == strLower (urlparse b).netloc

/-- The source's `is_http_url`: scheme is http or https. -/
def is_http_url (u : String) : Bool :=
  (urlparse u).scheme == "http" || (urlparse u).scheme == "https"

/-! ## Frontier state and admission policy -/

/-- Crawl configuration as `allowed` consumes it: the start URL, the
compiled allow-path regex (as the predicate `allowed_re.match(path)` is
truthy), and the robots oracle `rp.can_fetch(user_agent, ·)` when robots
checking is active (`rp` is `None` otherwise). -/
structure CrawlCfg where
  start_url : String
  pathOk : String → Bool
  rp : Option (String → Bool)

/-- The source's `allowed`: scheme/host, then path regex, then robots,
with the early `return False` structure of the code. -/
def allowed (cfg : CrawlCfg) (u : String) : Bool :=
  if !(is_http_url u) || !(same_site u cfg.start_url) then false
  else if !(cfg.pathOk (urlparse u).path) then false
  else if (match cfg.rp with | some canFetch => !(canFetch u) | none => false) then false
  else true

/-- Admission written exactly as the spec words it: four checks in the order
scheme, same-host, path-regex, robots, short-circuiting on first failure. -/
def admissionInOrder (cfg : CrawlCfg) (u : String) : Bool :=
  if !(is_http_url u) then false
  else if !(same_site u cfg.start_url) then false
  else if !(cfg.pathOk (urlparse u).path) then false
  else if (match cfg.rp with | some canFetch => !(canFetch u) | none => false) then false
  else true

/-- Frontier state: the pending queue and the seen-set of the source, plus
`hist`, a ghost trace that records every append ever made to the queue (it
lets lifetime statements survive dequeues; the code has no such variable). -/
structure Frontier where
  queue : List String
  seen : List String
  hist : List String
deriving Repr, DecidableEq

/-- The initial, empty frontier. -/
def finit : Frontier := ⟨[], [], []⟩

/-- The source's `enqueue`: defragment, and when the result is non-empty,
unseen and admissible, mark it seen and append it to the queue. -/
def enqueue (adm : String → Bool) (st : Frontier) (u0 : String) : Frontier :=
  let u := urldefrag0 u0
  if !(u == "") && !(st.seen.contains u) && adm u then
    ⟨st.queue ++ [u], u :: st.seen, st.hist ++ [u]⟩
  else st

/-- Enqueue a whole list, left to right. -/
def enqueueAll (adm : String → Bool) (st : Frontier) (us : List String) : Frontier :=
  us.foldl (enqueue adm) st

/-- Frontier operations the crawl performs: `enqueue` and `queue.popleft()`. -/
inductive FOp where
  | enq (u : String)
  | deq
deriving Repr, DecidableEq

/-- One frontier operation. -/
def fstep (adm : String → Bool) (st : Frontier) : FOp → Frontier
  | .enq u => enqueue adm st u
  | .deq => { st with queue := st.queue.tail }

/-- A sequence of frontier operations. -/
def frun (adm : String → Bool) (st : Frontier) (ops : List FOp) : Frontier :=
  ops.foldl (fstep adm) st

/-- Frontier invariant: seen-set and append history agree as sets, every URL
was appended at most once, and the queue never holds more copies than were
ever appended. -/
def FInv (st : Frontier) : Prop :=
  (∀ d, d ∈ st.seen ↔ d ∈ st.hist)
  ∧ (∀ d, st.hist.count d ≤ 1)
  ∧ (∀ d, st.queue.count d ≤ st.hist.count d)

/-! ## DOM model and substring search -/

/-- A parsed DOM node, as the HTML parser collaborator hands it to the
extraction pipeline: an element with tag name, attribute list and children,
or a text node. Tag names are already lowercased by the parser. -/
inductive Node where
  | el (tag : String) (attrs : List (String × String)) (children : List Node)
  | txt (s : String)

/-- Does `pat` occur at the front of the list? -/
def listStartsWith : List Char → List Char → Bool
  | [], _ => true
  | _ :: _, [] => false
  | p :: ps, c :: cs => p == c && listStartsWith ps cs

/-- Does `pat` occur anywhere in the list (a substring search, the effect of
`re.search` with a literal alternative)? -/
def containsSeq (pat : List Char) : List Char → Bool
  | [] => listStartsWith pat []
  | c :: cs => listStartsWith pat (c :: cs) || containsSeq pat cs

/-- String `startswith`. -/
def startsWithStr (pre s : String) : Bool := listStartsWith pre.data s.data

/-- String `endswith`. -/
def endsWithStr (suf s : String) : Bool :=
  listStartsWith suf.data.reverse s.data.reverse

/-- Split on whitespace, dropping empty pieces — how the HTML parser
tokenizes a `class` attribute into a list of class names. -/
def splitWSChars (l : List Char) : List (List Char) :=
  (l.foldr (fun c acc =>
    if isPyWS c then [] :: acc
    else match acc with
      | [] => [[c]]
      | w :: ws => (c :: w) :: ws) []).filter (fun w => !w.isEmpty)

/-! ### bs4 accessors the source uses -/

/- All strings in the subtree, in document order; with `strip` each string
is stripped and empty results are dropped (bs4 `_all_strings`). -/
mutual
def nodeStrings (strip : Bool) : Node → List String
  | .txt s => if strip then (if pyStrip s == "" then [] else [pyStrip s]) else [s]
  | .el _ _ cs => nodesStrings strip cs

def nodesStrings (strip : Bool) : List Node → List String
  | [] => []
  | c :: cs => nodeStrings strip c ++ nodesStrings strip cs
end

/-- bs4 `get_text(sep, strip)`. -/
def getText (sep : String) (strip : Bool) (n : Node) : String :=
  sep.intercalate (nodeStrings strip n)

/- All descendants of a node, preorder, the node itself excluded — the
iteration order of bs4 `find_all(..., recursive=True)`. -/
mutual
def descendants : Node → List Node
  | .txt _ => []
  | .el _ _ cs => descendantsL cs

def descendantsL : List Node → List Node
  | [] => []
  | c :: cs => (c :: descendants c) ++ descendantsL cs
end

/-- Tag name of an element (empty for text nodes). -/
def tagOf : Node → String
  | .el t _ _ => t
  | .txt _ => ""

/-- Is this an element whose tag is in `names`? -/
def isElemWithTagIn (names : List String) : Node → Bool
  | .el t _ _ => names.contains t
  | .txt _ => false

/-- bs4 `find_all(names, recursive=True)`: matching descendants in document
order. -/
def find_all (names : List String) (n : Node) : List Node :=
  (descendants n).filter (isElemWithTagIn names)

/-- Child list of a node (`recursive=False` searches look here). -/
def childrenOf : Node → List Node
  | .el _ _ cs => cs
  | .txt _ => []

/-- bs4 `tag.get(key)`: the attribute value, when present. -/
def attrOf (n : Node) (k : String) : Option String :=
  match n with
  | .el _ a _ => (a.find? (fun p => p.1 == k)).map (fun p => p.2)
  | .txt _ => none

/-- Python truthiness on an optional string: `None` and `""` are falsy, so
`x or y` keeps `x` only when it is a non-empty string. -/
def pyTruthy : Option String → Option String
  | some s => if s == "" then none else some s
  | none => none

/-! ### Noise stripping (`strip_unwanted`) -/

/-- Tags removed wholesale by the first pass of `strip_unwanted`. -/
def badTags : List String :=
  ["script", "style", "noscript", "svg", "form", "iframe", "header", "footer", "nav", "aside"]

/-- A case-insensitive search for the noise-keyword regex
`(share|social|comment|related|cookie|ads?|promo|newsletter)`; as a
substring search the optional `s` of `ads?` adds nothing, so the
alternatives reduce to these literals. -/
def noiseSearch (s : String) : Bool :=
  ["share", "social", "comment", "related", "cookie", "ad", "promo", "newsletter"].any
    (fun k => containsSeq k.data (s.data.map charLower))

/-- The class attribute as bs4 yields it (a whitespace-split token list),
joined back with single spaces as the source does; absent class gives "". -/
def classJoined (a : List (String × String)) : String :=
  match (a.find? (fun p => p.1 == "class")).map (fun p => p.2) with
  | some v => " ".intercalate ((splitWSChars v.data).map String.mk)
  | none => ""

/-- The id attribute with the source's `attrs.get("id", "") or ""` default. -/
def idOf (a : List (String × String)) : String :=
  match (a.find? (fun p => p.1 == "id")).map (fun p => p.2) with
  | some v => v
  | none => ""

/-- Does the class or id of this attribute list match the noise keywords? -/
def noiseAttrs (a : List (String × String)) : Bool :=
  noiseSearch (classJoined a) || noiseSearch (idOf a)

/-- Element whose tag is in the removal list. -/
def isBadTag : Node → Bool
  | .el t _ _ => badTags.contains t
  | .txt _ => false

/-- Element whose class or id matches the noise keywords. -/
def isNoise : Node → Bool
  | .el _ a _ => noiseAttrs a
  | .txt _ => false

/- First pass of `strip_unwanted`: decompose every descendant whose tag is
in `badTags` (the container itself is never selected). -/
mutual
def stripTags : Node → Node
  | .txt s => .txt s
  | .el t a cs => .el t a (stripTagsL cs)

def stripTagsL : List Node → List Node
  | [] => []
  | c :: cs => (if isBadTag c then [] else [stripTags c]) ++ stripTagsL cs
end

/- Second pass of `strip_unwanted`: decompose every remaining descendant
whose class or id matches the noise keywords (bottom-up in the source, which
has the same result as this recursive removal, since decomposing an ancestor
also removes its descendants). -/
mutual
def stripNoise : Node → Node
  | .txt s => .txt s
  | .el t a cs => .el t a (stripNoiseL cs)

def stripNoiseL : List Node → List Node
  | [] => []
  | c :: cs => (if isNoise c then [] else [stripNoise c]) ++ stripNoiseL cs
end

/-- The source's `strip_unwanted` as a function on the container. -/
def strip_unwanted (container : Node) : Node := stripNoise (stripTags container)

/-! ### Block extraction (`extract_blocks`) -/

/-- One typed content block — the tagged union of the data model. -/
inductive ContentBlock where
  | heading (level : Nat) (text : String)
  | paragraph (text : String)
  | list (items : List String)
  | quote (text : String)
  | code (text : String)
  | image (src : String) (alt : Option String)
deriving Repr, DecidableEq

/-- One entry of the `images` output list: `{"src": ..., "alt": ...}`. -/
abbrev ImgEntry := String × Option String

/-- The tag list of the source's `find_all` call in `extract_blocks`
(note: `h6` is absent in the source). -/
def blockTagList : List String :=
  ["h1", "h2", "h3", "h4", "h5", "p", "ul", "ol", "blockquote", "pre", "img"]

/-- `int(name[1])` for a heading tag name. -/
def hLevel (name : String) : Nat := digitVal (name.data.getD 1 '0')

/-- The source's inner `add_image`: prefer `src`, fall back to `data-src`,
skip when both are falsy; absolutize against the base URL (`join` is the
`urljoin` collaborator, applied as `urljoin(base, src)`); empty `alt`
becomes absent. Appends to both the block list and the image list. -/
def addImage (join : String → String → String) (base : String)
    (st : List ContentBlock × List ImgEntry) (img : Node) :
    List ContentBlock × List ImgEntry :=
  match (pyTruthy (attrOf img "src")).or (pyTruthy (attrOf img "data-src")) with
  | none => st
  | some s0 =>
    let s := join base s0
    let alt := pyTruthy (attrOf img "alt")
    (st.1 ++ [.image s alt], st.2 ++ [(s, alt)])

/-- The normalized visible text `normalize_ws(el.get_text(" ", strip=True))`
used by the heading, paragraph and quote branches. -/
def visText (el : Node) : String := normalize_ws (getText " " true el)

/-- The list items of a `ul`/`ol`: the direct `li` children whose raw text
is non-empty after normalization, each rendered with separator and strip. -/
def listItems (el : Node) : List String :=
  ((childrenOf el).filter (isElemWithTagIn ["li"])).filterMap
    (fun li => if normalize_ws (getText "" false li) == "" then none
      else some (normalize_ws (getText " " true li)))

/-- The text of a `pre`: newline-joined strings, then `strip("\n")`. -/
def preText (el : Node) : String :=
  String.mk (stripBy (fun c => c == '\n') (getText "\n" true el).data)

/-- One step of the source's dispatch over a found element. -/
def processEl (join : String → String → String) (base : String)
    (st : List ContentBlock × List ImgEntry) (el : Node) :
    List ContentBlock × List ImgEntry :=
  let name := strLower (tagOf el)
  if name == "img" then addImage join base st el
  else if startsWithStr "h" name then
    if visText el == "" then st
    else (st.1 ++ [.heading (hLevel name) (visText el)], st.2)
  else if name == "p" then
    if !(find_all ["img"] el).isEmpty && visText el == "" then
      (find_all ["img"] el).foldl (addImage join base) st
    else if visText el == "" then st
    else (st.1 ++ [.paragraph (visText el)], st.2)
  else if name == "ul" || name == "ol" then
    if (listItems el).isEmpty then st else (st.1 ++ [.list (listItems el)], st.2)
  else if name == "blockquote" then
    if visText el == "" then st else (st.1 ++ [.quote (visText el)], st.2)
  else if name == "pre" then
    if preText el == "" then st else (st.1 ++ [.code (preText el)], st.2)
  else st

/-- The source's `extract_blocks`: walk the found elements in document order
and accumulate blocks and images. -/
def extract_blocks (join : String → String → String) (container : Node)
    (base : String) : List ContentBlock × List ImgEntry :=
  (find_all blockTagList container).foldl (processEl join base) ([], [])

/-! ## Heading blocks and image bookkeeping -/

/-- The numeral in a heading tag name, as the spec words it. -/
def headingNumeralSpec (t : String) : Nat :=
  if t == "h1" then 1 else if t == "h2" then 2 else if t == "h3" then 3
  else if t == "h4" then 4 else if t == "h5" then 5 else if t == "h6" then 6 else 0

/-- The heading block an element contributes, if any: one `heading` block
for an `h1`..`h5` element with non-empty normalized text. -/
def headingEmit : Node → Option ContentBlock
  | .el t a cs =>
    if (t == "h1" || t == "h2" || t == "h3" || t == "h4" || t == "h5")
        && !(normalize_ws (getText " " true (Node.el t a cs)) == "") then
      some (.heading (headingNumeralSpec t)
        (normalize_ws (getText " " true (Node.el t a cs))))
    else none
  | .txt _ => none

/-- Keep only heading blocks. -/
def headingOnly (b : ContentBlock) : Option ContentBlock :=
  match b with
  | .heading l t => some (.heading l t)
  | _ => none

/-- The payload of an image block, if the block is one. -/
def imagePayload (b : ContentBlock) : Option ImgEntry :=
  match b with
  | .image s a => some (s, a)
  | _ => none

/-! ## The C4 fixture document -/

/-- Fixture: one `h1`, two paragraphs, one `ul` with items A and B, and a
`social-share` noise subtree. -/
def fixtureC4 : Node :=
  Node.el "div" [] [
    Node.el "h1" [] [Node.txt "Title"],
    Node.el "p" [] [Node.txt "First paragraph."],
    Node.el "p" [] [Node.txt "Second paragraph."],
    Node.el "ul" [] [Node.el "li" [] [Node.txt "A"], Node.el "li" [] [Node.txt "B"]],
    Node.el "div" [("class", "social-share")] [Node.el "p" [] [Node.txt "Share this article"]]]

/-! ## Sitemap documents and frontier seeding -/

/-- A parsed XML element as the `ElementTree` collaborator yields it: tag in
Clark notation (`\x7bnamespace\x7dlocal`), optional text, children. -/
inductive XElem where
  | mk (tag : String) (text : Option String) (children : List XElem)

/-- Tag of an element. -/
def xtag : XElem → String
  | .mk t _ _ => t

/-- Text of an element (`None` when empty in ElementTree). -/
def xtext : XElem → Option String
  | .mk _ x _ => x

/-- Children of an element. -/
def xchildren : XElem → List XElem
  | .mk _ _ cs => cs

/- All descendants of an XML element in document order (the search space of
`findall(".//...")`, which never matches the root itself). -/
mutual
def xdesc : XElem → List XElem
  | .mk _ _ cs => xdescL cs

def xdescL : List XElem → List XElem
  | [] => []
  | c :: cs => (c :: xdesc c) ++ xdescL cs
end

/-- The sitemap namespace prefix in Clark notation, as `ElementTree` writes
resolved `sm:` tags. -/
def smNS : String := "\x7bhttp://www.sitemaps.org/schemas/sitemap/0.9\x7d"

/-- `root.findall(".//sm:<inner>/sm:loc", ns)` followed by the source's
`[loc.text.strip() for loc in ... if loc.text]`: every descendant tagged
`<inner>`, its `loc` children, texts that are truthy, stripped. -/
def sitemapLocs (inner : String) (root : XElem) : List String :=
  ((xdesc root).filter (fun e => xtag e == smNS ++ inner)).flatMap
    (fun e => ((xchildren e).filter (fun c => xtag c == smNS ++ "loc")).filterMap
      (fun loc => match xtext loc with
        | some s => if s == "" then none else some (pyStrip s)
        | none => none))

/-- The source's `parse_sitemap_urls`, with the XML parser as a collaborator
(`parseX` returns `none` when `ET.fromstring` raises; the surrounding `try`
then yields `[]`): dispatch on the root tag's local name. -/
def parse_sitemap_urls (parseX : String → Option XElem) (xml : String) : List String :=
  match parseX xml with
  | none => []
  | some root =>
    if endsWithStr "sitemapindex" (xtag root) then sitemapLocs "sitemap" root
    else if endsWithStr "urlset" (xtag root) then sitemapLocs "url" root
    else []

/-- The entry loop of the sitemap-seeding phase (source lines
`for u in urls: ...`): an entry ending in `.xml` is fetched and parsed once
as a sitemap and its URLs are enqueued directly; any other entry is enqueued
itself. A fetch failure (`fetchOk u = none` models the raise) aborts the
remaining entries of this sitemap — the outer `except: continue` — while
earlier enqueues persist. -/
def processEntries (fetchOk : String → Option String) (parseX : String → Option XElem)
    (adm : String → Bool) : Frontier → List String → Frontier
  | st, [] => st
  | st, u :: rest =>
    if endsWithStr ".xml" u then
      match fetchOk u with
      | none => st
      | some nxml =>
        processEntries fetchOk parseX adm
          (enqueueAll adm st (parse_sitemap_urls parseX nxml)) rest
    else processEntries fetchOk parseX adm (enqueue adm st u) rest

/-- Seeding from one sitemap candidate: fetch it (a raise skips it), parse
it, run the entry loop. -/
def seedFromSitemap (fetchOk : String → Option String) (parseX : String → Option XElem)
    (adm : String → Bool) (st : Frontier) (sm : String) : Frontier :=
  match fetchOk sm with
  | none => st
  | some xml => processEntries fetchOk parseX adm st (parse_sitemap_urls parseX xml)

/-- The whole seeding phase: fold over the sitemap candidates, then fall
back to the start URL when the queue stayed empty. -/
def seedPhase (fetchOk : String → Option String) (parseX : String → Option XElem)
    (adm : String → Bool) (start_url : String) (sitemaps : List String) : Frontier :=
  let st := sitemaps.foldl (seedFromSitemap fetchOk parseX adm) finit
  if st.queue.isEmpty then enqueue adm st start_url else st

/-- Fetch oracle of the C5 counterexample. -/
def cexFetch : String → Option String :=
  fun u => if u == "sm1" then some "X1"
    else if u == "http://e/sub.xml" then some "X2" else none

/-- XML-parse oracle of the C5 counterexample: `X1` is a url-set whose only
entry ends in `.xml`; `X2` is a url-set with one page URL. -/
def cexParse : String → Option XElem :=
  fun x =>
    if x == "X1" then
      some (XElem.mk (smNS ++ "urlset") none
        [XElem.mk (smNS ++ "url") none
          [XElem.mk (smNS ++ "loc") (some "http://e/sub.xml") []]])
    else if x == "X2" then
      some (XElem.mk (smNS ++ "urlset") none
        [XElem.mk (smNS ++ "url") none
          [XElem.mk (smNS ++ "loc") (some "http://e/page") []]])
    else none

/-! ## Static fetch with retry and backoff (`fetch`) -/

/-- Outcome trace of one `fetch` call: how many attempts ran, the delays
slept between attempts (exact rational values of
`0.8 * (2 ** attempt) + random.random() * 0.2`), and the result — `ok` with
`(resp.text, resp.url)` or the `RuntimeError` carrying the last underlying
error (`none` only in the degenerate no-attempt case). -/
structure FetchRun where
  attempts : Nat
  sleeps : List ℚ
  outcome : Except (Option String) (String × String)

/-- The delay slept after failed attempt `i`:
`0.8 * (2 ** attempt) + random.random() * 0.2` with the random draw supplied
by the oracle `rand` (each draw lies in `[0, 1)`). -/
def sleepAmt (rand : Nat → ℚ) (i : Nat) : ℚ := 4/5 * 2 ^ i + rand i * (1/5)

/-- The retry loop of `fetch`: attempt `i` with `r` attempts remaining; a
success returns at once, a failure sleeps (except after the last attempt)
and retries, and exhaustion raises with the last error. `att i` models the
whole `session.get` + `raise_for_status` + decode of attempt `i`. -/
def fetchAux (att : Nat → Except String (String × String)) (rand : Nat → ℚ) :
    Nat → Nat → Option String → FetchRun
  | _, 0, last => ⟨0, [], .error last⟩
  | i, r + 1, _ =>
    match att i with
    | .ok v => ⟨1, [], .ok v⟩
    | .error e =>
      if r = 0 then ⟨1, [], .error (some e)⟩
      else
        let rest := fetchAux att rand (i + 1) r (some e)
        ⟨rest.attempts + 1, sleepAmt rand i :: rest.sleeps, rest.outcome⟩

/-- The source's `fetch(session, url, timeout, retries)`:
`for attempt in range(retries + 1)`. -/
def fetchModel (att : Nat → Except String (String × String)) (rand : Nat → ℚ)
    (retries : Nat) : FetchRun :=
  fetchAux att rand 0 (retries + 1) none

/-- Attempt oracle of the C6 witness: the first attempt fails, the next
succeeds. -/
def attW : Nat → Except String (String × String) :=
  fun i => if i = 0 then .error "boom" else .ok ("html", "http://e/p")

/-- Random oracle of the C6 witness. -/
def randW : Nat → ℚ := fun _ => 1/2

/-! ## The crawl loop and guaranteed renderer release (C9) -/

/-- What one loop iteration does with a dequeued URL, as an oracle over the
fetch + parse + extract composite: the fetch raised and was caught
(`fetchFail`, the inner `except` — the loop continues), an uncaught
exception was raised later in the body (`raised` — it propagates out of the
loop), or the iteration succeeded with a final URL, the raw outbound hrefs
and the assembled record (abstracted to a token). -/
inductive IterOut where
  | fetchFail
  | raised (e : String)
  | ok (finalUrl : String) (hrefs : List String) (rec : String)

/-- Non-navigational schemes the link extractor skips. -/
def badHrefScheme (h : String) : Bool :=
  startsWithStr "mailto:" h || startsWithStr "tel:" h || startsWithStr "javascript:" h

/-- Feed each stripped, navigational href through the frontier's admission
and enqueue path, absolutized against the final URL. -/
def enqueueLinks (adm : String → Bool) (join : String → String → String)
    (finalUrl : String) (st : Frontier) (hrefs : List String) : Frontier :=
  hrefs.foldl (fun s h0 =>
    if !(pyStrip h0 == "") && !(badHrefScheme (pyStrip h0)) then
      enqueue adm s (join finalUrl (pyStrip h0))
    else s) st

/-- How the crawl loop exits: normally (queue empty or page budget reached),
with a propagating exception, or not at all within the given fuel. -/
inductive CrawlOut where
  | finished (recs : List String) (st : Frontier)
  | raised (e : String) (recs : List String) (st : Frontier)
  | fuelOut
deriving Repr, DecidableEq

/-- The `while queue and len(records) < max_pages` loop of
`crawl_and_export`, fuelled to stay total: dequeue, consult the iteration
oracle, on success grow the frontier with the discovered links and append
the record. An uncaught exception exits the loop with the state as it stood. -/
def crawlLoop (oracle : String → IterOut) (adm : String → Bool)
    (join : String → String → String) (maxPages : Nat) :
    Nat → Frontier → List String → CrawlOut
  | 0, _, _ => .fuelOut
  | fuel + 1, st, recs =>
    match st.queue with
    | [] => .finished recs st
    | url :: rest =>
      if recs.length < maxPages then
        match oracle url with
        | .fetchFail =>
          crawlLoop oracle adm join maxPages fuel { st with queue := rest } recs
        | .raised e => .raised e recs { st with queue := rest }
        | .ok finalUrl hrefs rec =>
          crawlLoop oracle adm join maxPages fuel
            (enqueueLinks adm join finalUrl { st with queue := rest } hrefs)
            (recs ++ [rec])
      else .finished recs st

/-- The `finally: if renderer: renderer.close()` of `crawl_and_export`: the
number of `close` calls attached to a loop exit. `fuelOut` is not an exit —
the loop is still running — so no cleanup has happened yet. -/
def rendererCloses (useJs : Bool) (out : CrawlOut) : Nat :=
  match out with
  | .fuelOut => 0
  | _ => if useJs then 1 else 0

/-- The loop wrapped in its `try`/`finally`: the loop's outcome together
with how many times the renderer was closed. -/
def crawl_with_cleanup (useJs : Bool) (oracle : String → IterOut) (adm : String → Bool)
    (join : String → String → String) (maxPages fuel : Nat) (st : Frontier)
    (recs : List String) : CrawlOut × Nat :=
  let out := crawlLoop oracle adm join maxPages fuel st recs
  (out, rendererCloses useJs out)

/-! ## Theorems -/

theorem noHH_cons (x : Char) (l : List Char) :
    noHH (x :: l) = ((match l.head? with
      | some h => !(isHWS x && isHWS h)
      | none => true) && noHH l) := by
  cases l <;> simp [noHH]

theorem noHH_tail {x : Char} {l : List Char} (h : noHH (x :: l) = true) : noHH l = true := by
  rw [noHH_cons] at h
  exact (Bool.and_eq_true _ _ |>.mp h).2

theorem noTriple_cons (x : Char) (l : List Char) :
    noTriple (x :: l) = ((match l.head?, l.tail.head? with
      | some b, some c => !(x == '\n' && b == '\n' && c == '\n')
      | _, _ => true) && noTriple l) := by
  match l with
  | [] => simp [noTriple]
  | [b] => simp [noTriple]
  | b :: c :: r => simp [noTriple]

theorem noTriple_tail {x : Char} {l : List Char} (h : noTriple (x :: l) = true) :
    noTriple l = true := by
  rw [noTriple_cons] at h
  exact (Bool.and_eq_true _ _ |>.mp h).2

/-! ### `collapseH` establishes `noHH` and `hwsSpace` -/

theorem collapseH_head_notHWS {b : Char} (r : List Char) (hb : isHWS b = false) :
    collapseH (b :: r) = b :: collapseH r := by
  match r with
  | [] => simp [collapseH, hb]
  | c :: r' => simp [collapseH, hb]

theorem collapseH_head_HWS : ∀ (r : List Char) {b : Char}, isHWS b = true →
    (collapseH (b :: r)).head? = some ' '
  | [], b, hb => by simp [collapseH, hb]
  | c :: r', b, hb => by
    by_cases hc : isHWS c = true
    · show (collapseH (b :: c :: r')).head? = some ' '
      rw [show collapseH (b :: c :: r') = collapseH (c :: r') by simp [collapseH, hb, hc]]
      exact collapseH_head_HWS r' hc
    · simp only [Bool.not_eq_true] at hc
      show (collapseH (b :: c :: r')).head? = some ' '
      rw [show collapseH (b :: c :: r') = ' ' :: collapseH (c :: r') by
        simp [collapseH, hb, hc]]
      rfl

theorem collapseH_head_not_newline : ∀ (l : List Char),
    (collapseH l).head? = some '\n' → l.head? = some '\n'
  | [], h => by simp [collapseH] at h
  | [c], h => by
    by_cases hc : isHWS c = true
    · simp [collapseH, hc] at h
    · simp only [Bool.not_eq_true] at hc
      simp [collapseH, hc] at h
      simp [h]
  | a :: b :: r, h => by
    by_cases ha : isHWS a = true
    · rw [collapseH_head_HWS (b :: r) ha] at h
      simp at h
    · simp only [Bool.not_eq_true] at ha
      rw [collapseH_head_notHWS (b :: r) ha] at h
      simpa using h

theorem collapseH_noHH : ∀ l : List Char, noHH (collapseH l) = true
  | [] => by simp [collapseH, noHH]
  | [c] => by by_cases hc : isHWS c = true <;> simp [collapseH, hc, noHH]
  | a :: b :: r => by
    by_cases hab : (isHWS a && isHWS b) = true
    · rw [show collapseH (a :: b :: r) = collapseH (b :: r) by simp [collapseH, hab]]
      exact collapseH_noHH (b :: r)
    · rw [show collapseH (a :: b :: r)
          = (if isHWS a then ' ' else a) :: collapseH (b :: r) by simp [collapseH, hab]]
      rw [noHH_cons]
      refine (Bool.and_eq_true _ _).mpr ⟨?_, collapseH_noHH (b :: r)⟩
      by_cases ha : isHWS a = true
      · have hb : isHWS b = false := by
          cases hB : isHWS b
          · rfl
          · exact absurd (by simp [ha, hB]) hab
        rw [collapseH_head_notHWS (r := r) hb]
        simp [ha, hb]
      · simp only [Bool.not_eq_true] at ha
        simp only [ha, if_false]
        cases (collapseH (b :: r)).head? with
        | none => simp
        | some h => simp [ha]

theorem hwsSpace_cons (c : Char) (cs : List Char) :
    hwsSpace (c :: cs) = ((!isHWS c || c == ' ') && hwsSpace cs) := rfl

theorem space_ok : (!isHWS ' ' || ' ' == ' ') = true := by decide

theorem collapseH_hwsSpace : ∀ l : List Char, hwsSpace (collapseH l) = true
  | [] => by simp [collapseH, hwsSpace]
  | [c] => by
    by_cases hc : isHWS c = true
    · rw [show collapseH [c] = [' '] by simp [collapseH, hc]]
      decide
    · simp only [Bool.not_eq_true] at hc
      rw [show collapseH [c] = [c] by simp [collapseH, hc]]
      simp [hwsSpace_cons, hwsSpace, hc]
  | a :: b :: r => by
    by_cases hab : (isHWS a && isHWS b) = true
    · rw [show collapseH (a :: b :: r) = collapseH (b :: r) by simp [collapseH, hab]]
      exact collapseH_hwsSpace (b :: r)
    · rw [show collapseH (a :: b :: r)
          = (if isHWS a then ' ' else a) :: collapseH (b :: r) by simp [collapseH, hab]]
      by_cases ha : isHWS a = true
      · simp only [ha, if_true]
        rw [hwsSpace_cons]
        simp [space_ok, collapseH_hwsSpace (b :: r)]
      · simp only [ha, if_false]
        rw [hwsSpace_cons]
        simp only [Bool.not_eq_true] at ha
        simp [ha, collapseH_hwsSpace (b :: r)]

/-! ### `collapseH` is the identity on `noHH`-and-`hwsSpace` lists -/

theorem hwsSpace_space {c : Char} {cs : List Char} (hs : hwsSpace (c :: cs) = true)
    (hc : isHWS c = true) : c = ' ' := by
  rw [hwsSpace_cons] at hs
  have h1 := (Bool.and_eq_true _ _ |>.mp hs).1
  rw [hc] at h1
  simpa using h1

theorem hwsSpace_tail {c : Char} {cs : List Char} (hs : hwsSpace (c :: cs) = true) :
    hwsSpace cs = true := by
  rw [hwsSpace_cons] at hs
  exact (Bool.and_eq_true _ _ |>.mp hs).2

theorem collapseH_id : ∀ l : List Char, noHH l = true → hwsSpace l = true → collapseH l = l
  | [], _, _ => rfl
  | [c], _, hs => by
    by_cases hc : isHWS c = true
    · have hce := hwsSpace_space hs hc
      simp [collapseH, hc, hce]
    · simp only [Bool.not_eq_true] at hc
      simp [collapseH, hc]
  | a :: b :: r, hh, hs => by
    have hab : (isHWS a && isHWS b) = false := by
      cases hv : (isHWS a && isHWS b)
      · rfl
      · exfalso
        simp [noHH, hv] at hh
    have htail : collapseH (b :: r) = b :: r :=
      collapseH_id (b :: r) (noHH_tail hh) (hwsSpace_tail hs)
    rw [show collapseH (a :: b :: r)
        = (if isHWS a then ' ' else a) :: collapseH (b :: r) by simp [collapseH, hab]]
    rw [htail]
    by_cases ha : isHWS a = true
    · have hae := hwsSpace_space hs ha
      simp [ha, hae]
    · simp only [Bool.not_eq_true] at ha
      simp [ha]

/-! ### `collapseNL` establishes `noTriple`, preserves the other predicates -/

theorem collapseNL_head : ∀ l : List Char, (collapseNL l).head? = l.head?
  | [] => rfl
  | [a] => rfl
  | [a, b] => rfl
  | a :: b :: c :: r => by
    by_cases h3 : (a == '\n' && b == '\n' && c == '\n') = true
    · rw [show collapseNL (a :: b :: c :: r) = collapseNL (b :: c :: r) by
        simp [collapseNL, h3]]
      rw [collapseNL_head (b :: c :: r)]
      have hab : a = b := by
        have h1 := h3
        simp at h1
        rw [h1.1.1, h1.1.2]
      simp [hab]
    · rw [show collapseNL (a :: b :: c :: r) = a :: collapseNL (b :: c :: r) by
        simp [collapseNL, h3]]
      rfl

theorem collapseNL_cons_ne (b c : Char) (r : List Char) (hc : (c == '\n') = false) :
    collapseNL (b :: c :: r) = b :: collapseNL (c :: r) := by
  match r with
  | [] => rfl
  | d :: r' => simp [collapseNL, hc]

theorem collapseNL_noTriple : ∀ l : List Char, noTriple (collapseNL l) = true
  | [] => rfl
  | [a] => rfl
  | [a, b] => by simp [collapseNL, noTriple]
  | a :: b :: c :: r => by
    by_cases h3 : (a == '\n' && b == '\n' && c == '\n') = true
    · rw [show collapseNL (a :: b :: c :: r) = collapseNL (b :: c :: r) by
        simp [collapseNL, h3]]
      exact collapseNL_noTriple (b :: c :: r)
    · rw [show collapseNL (a :: b :: c :: r) = a :: collapseNL (b :: c :: r) by
        simp [collapseNL, h3]]
      rw [noTriple_cons]
      refine (Bool.and_eq_true _ _).mpr ⟨?_, collapseNL_noTriple (b :: c :: r)⟩
      by_cases hA : a = '\n'
      · by_cases hB : b = '\n'
        · -- first two are newlines, so the third cannot be
          have hc : (c == '\n') = false := by
            cases hv : (c == '\n')
            · rfl
            · exact absurd (by simp [hA, hB, hv]) h3
          rw [collapseNL_cons_ne b c r hc]
          simp only [List.head?_cons, List.tail_cons]
          rw [collapseNL_head (c :: r)]
          simp only [List.head?_cons]
          simp [hc]
        · -- second character is not a newline and heads the collapsed tail
          rw [collapseNL_head (b :: c :: r)]
          simp only [List.head?_cons]
          cases hz : (collapseNL (b :: c :: r)).tail.head? with
          | none => simp
          | some z => simp [hB]
      · cases hy : (collapseNL (b :: c :: r)).head? with
        | none => simp
        | some y =>
          cases hz : (collapseNL (b :: c :: r)).tail.head? with
          | none => simp
          | some z => simp [hA]

theorem collapseNL_id : ∀ l : List Char, noTriple l = true → collapseNL l = l
  | [], _ => rfl
  | [a], _ => rfl
  | [a, b], _ => rfl
  | a :: b :: c :: r, h => by
    have h3 : (a == '\n' && b == '\n' && c == '\n') = false := by
      cases hv : (a == '\n' && b == '\n' && c == '\n')
      · rfl
      · exfalso
        simp [noTriple, hv] at h
    rw [show collapseNL (a :: b :: c :: r) = a :: collapseNL (b :: c :: r) by
      simp [collapseNL, h3]]
    rw [collapseNL_id (b :: c :: r) (noTriple_tail h)]

theorem collapseNL_noHH : ∀ l : List Char, noHH l = true → noHH (collapseNL l) = true
  | [], _ => rfl
  | [a], _ => rfl
  | [a, b], h => by simpa [collapseNL] using h
  | a :: b :: c :: r, h => by
    by_cases h3 : (a == '\n' && b == '\n' && c == '\n') = true
    · rw [show collapseNL (a :: b :: c :: r) = collapseNL (b :: c :: r) by
        simp [collapseNL, h3]]
      exact collapseNL_noHH (b :: c :: r) (noHH_tail h)
    · rw [show collapseNL (a :: b :: c :: r) = a :: collapseNL (b :: c :: r) by
        simp [collapseNL, h3]]
      rw [noHH_cons]
      refine (Bool.and_eq_true _ _).mpr ⟨?_, collapseNL_noHH (b :: c :: r) (noHH_tail h)⟩
      rw [collapseNL_head (b :: c :: r)]
      simp only [List.head?_cons]
      have hpair : (!(isHWS a && isHWS b)) = true := by
        rw [noHH_cons] at h
        exact (Bool.and_eq_true _ _ |>.mp h).1
      exact hpair

theorem collapseNL_hwsSpace : ∀ l : List Char, hwsSpace l = true → hwsSpace (collapseNL l) = true
  | [], _ => rfl
  | [a], h => h
  | [a, b], h => h
  | a :: b :: c :: r, h => by
    by_cases h3 : (a == '\n' && b == '\n' && c == '\n') = true
    · rw [show collapseNL (a :: b :: c :: r) = collapseNL (b :: c :: r) by
        simp [collapseNL, h3]]
      exact collapseNL_hwsSpace (b :: c :: r) (hwsSpace_tail h)
    · rw [show collapseNL (a :: b :: c :: r) = a :: collapseNL (b :: c :: r) by
        simp [collapseNL, h3]]
      rw [hwsSpace_cons]
      refine (Bool.and_eq_true _ _).mpr ⟨?_, collapseNL_hwsSpace (b :: c :: r) (hwsSpace_tail h)⟩
      rw [hwsSpace_cons] at h
      exact (Bool.and_eq_true _ _ |>.mp h).1

/-! ### Strip preserves the predicates and produces clean ends -/

theorem noHH_dropWhile (p : Char → Bool) : ∀ l : List Char, noHH l = true →
    noHH (l.dropWhile p) = true
  | [], _ => rfl
  | c :: cs, h => by
    by_cases hp : p c = true
    · rw [List.dropWhile_cons, if_pos hp]
      exact noHH_dropWhile p cs (noHH_tail h)
    · rw [List.dropWhile_cons, if_neg hp]
      exact h

theorem hwsSpace_dropWhile (p : Char → Bool) : ∀ l : List Char, hwsSpace l = true →
    hwsSpace (l.dropWhile p) = true
  | [], _ => rfl
  | c :: cs, h => by
    by_cases hp : p c = true
    · rw [List.dropWhile_cons, if_pos hp]
      exact hwsSpace_dropWhile p cs (hwsSpace_tail h)
    · rw [List.dropWhile_cons, if_neg hp]
      exact h

theorem noTriple_dropWhile (p : Char → Bool) : ∀ l : List Char, noTriple l = true →
    noTriple (l.dropWhile p) = true
  | [], _ => rfl
  | c :: cs, h => by
    by_cases hp : p c = true
    · rw [List.dropWhile_cons, if_pos hp]
      exact noTriple_dropWhile p cs (noTriple_tail h)
    · rw [List.dropWhile_cons, if_neg hp]
      exact h

theorem dropTrailIf_cons (p : Char → Bool) (c : Char) (cs : List Char) :
    dropTrailIf p (c :: cs)
      = if (dropTrailIf p cs).isEmpty && p c then [] else c :: dropTrailIf p cs := rfl

theorem dropTrailIf_eq_take (p : Char → Bool) : ∀ l : List Char,
    ∃ n, dropTrailIf p l = l.take n
  | [] => ⟨0, rfl⟩
  | c :: cs => by
    obtain ⟨n, hn⟩ := dropTrailIf_eq_take p cs
    by_cases hb : ((dropTrailIf p cs).isEmpty && p c) = true
    · exact ⟨0, by rw [dropTrailIf_cons, if_pos hb]; rfl⟩
    · refine ⟨n + 1, ?_⟩
      rw [dropTrailIf_cons, if_neg hb, hn, List.take_succ_cons]

theorem noHH_take : ∀ (n : Nat) (l : List Char), noHH l = true → noHH (l.take n) = true
  | 0, _, _ => rfl
  | _ + 1, [], _ => rfl
  | _ + 1, [a], ha => by rw [List.take_succ_cons, List.take_nil]; exact ha
  | n + 1, a :: b :: r, h => by
    cases n with
    | zero => rfl
    | succ m =>
      show noHH (a :: b :: List.take m r) = true
      have h1 : (!(isHWS a && isHWS b)) = true := by
        rw [noHH_cons] at h
        exact (Bool.and_eq_true _ _ |>.mp h).1
      have h2 : noHH (List.take (m + 1) (b :: r)) = true :=
        noHH_take (m + 1) (b :: r) (noHH_tail h)
      show (!(isHWS a && isHWS b) && noHH (b :: List.take m r)) = true
      exact (Bool.and_eq_true _ _).mpr ⟨h1, h2⟩

theorem hwsSpace_take : ∀ (n : Nat) (l : List Char), hwsSpace l = true →
    hwsSpace (l.take n) = true
  | 0, _, _ => rfl
  | _ + 1, [], _ => rfl
  | n + 1, c :: cs, h => by
    show hwsSpace (c :: List.take n cs) = true
    rw [hwsSpace_cons]
    refine (Bool.and_eq_true _ _).mpr ⟨?_, hwsSpace_take n cs (hwsSpace_tail h)⟩
    rw [hwsSpace_cons] at h
    exact (Bool.and_eq_true _ _ |>.mp h).1

theorem noTriple_take : ∀ (n : Nat) (l : List Char), noTriple l = true →
    noTriple (l.take n) = true
  | 0, _, _ => rfl
  | _ + 1, [], _ => rfl
  | _ + 1, [a], ha => by rw [List.take_succ_cons, List.take_nil]; exact ha
  | n + 1, a :: b :: r, h => by
    cases n with
    | zero => rfl
    | succ m =>
      cases r with
      | nil =>
        rw [List.take_succ_cons, List.take_succ_cons, List.take_nil]
        exact h
      | cons c r' =>
        cases m with
        | zero => rfl
        | succ k =>
          show noTriple (a :: b :: c :: List.take k r') = true
          have h1 : (!(a == '\n' && b == '\n' && c == '\n')) = true := by
            have := h
            simp only [noTriple, Bool.and_eq_true] at this
            simp [this.1]
          have h2 : noTriple (List.take (k + 2) (b :: c :: r')) = true :=
            noTriple_take (k + 2) (b :: c :: r') (noTriple_tail h)
          show (!(a == '\n' && b == '\n' && c == '\n')
              && noTriple (b :: c :: List.take k r')) = true
          exact (Bool.and_eq_true _ _).mpr ⟨h1, h2⟩

theorem noLead_dropWhile (p : Char → Bool) : ∀ l : List Char,
    noLeadB p (l.dropWhile p) = true
  | [] => rfl
  | c :: cs => by
    by_cases hp : p c = true
    · rw [List.dropWhile_cons, if_pos hp]
      exact noLead_dropWhile p cs
    · rw [List.dropWhile_cons, if_neg hp]
      simp only [Bool.not_eq_true] at hp
      simp [noLeadB, hp]

theorem noTrailB_cons (p : Char → Bool) (c : Char) {r : List Char} (hr : r ≠ []) :
    noTrailB p (c :: r) = noTrailB p r := by
  cases r with
  | nil => exact absurd rfl hr
  | cons d r' => rfl

theorem noTrail_dropTrailIf (p : Char → Bool) : ∀ l : List Char,
    noTrailB p (dropTrailIf p l) = true
  | [] => rfl
  | c :: cs => by
    by_cases hb : ((dropTrailIf p cs).isEmpty && p c) = true
    · simp [dropTrailIf, hb, noTrailB]
    · rw [show dropTrailIf p (c :: cs) = c :: dropTrailIf p cs by simp [dropTrailIf, hb]]
      by_cases hr : dropTrailIf p cs = []
      · rw [hr]
        have hpc : p c = false := by
          cases hv : p c
          · rfl
          · exact absurd (by simp [hr, hv]) hb
        simp [noTrailB, hpc]
      · rw [noTrailB_cons p c hr]
        exact noTrail_dropTrailIf p cs

theorem noLead_dropTrailIf (p : Char → Bool) : ∀ l : List Char, noLeadB p l = true →
    noLeadB p (dropTrailIf p l) = true
  | [], _ => rfl
  | c :: cs, h => by
    by_cases hb : ((dropTrailIf p cs).isEmpty && p c) = true
    · simp [dropTrailIf, hb, noLeadB]
    · rw [show dropTrailIf p (c :: cs) = c :: dropTrailIf p cs by simp [dropTrailIf, hb]]
      exact h

theorem dropWhile_id (p : Char → Bool) (l : List Char) (h : noLeadB p l = true) :
    l.dropWhile p = l := by
  cases l with
  | nil => rfl
  | cons c cs =>
    have hp : p c = false := by
      simpa [noLeadB] using h
    rw [List.dropWhile_cons, if_neg (by simp [hp])]

theorem dropTrailIf_id (p : Char → Bool) : ∀ l : List Char, noTrailB p l = true →
    dropTrailIf p l = l
  | [], _ => rfl
  | [c], h => by
    have hp : p c = false := by simpa [noTrailB] using h
    simp [dropTrailIf, hp]
  | c :: d :: cs, h => by
    have htail : dropTrailIf p (d :: cs) = d :: cs :=
      dropTrailIf_id p (d :: cs) (by rw [noTrailB_cons p c (by simp)] at h; exact h)
    have hcond : ((dropTrailIf p (d :: cs)).isEmpty && p c) = false := by
      rw [htail]
      rfl
    rw [dropTrailIf_cons, hcond]
    simp [htail]

theorem stripBy_id (p : Char → Bool) (l : List Char) (h1 : noLeadB p l = true)
    (h2 : noTrailB p l = true) : stripBy p l = l := by
  unfold stripBy
  rw [dropWhile_id p l h1, dropTrailIf_id p l h2]

/-! ### Idempotence of `normalize_ws` -/

theorem noHH_stripBy (p : Char → Bool) (l : List Char) (h : noHH l = true) :
    noHH (stripBy p l) = true := by
  unfold stripBy
  obtain ⟨n, hn⟩ := dropTrailIf_eq_take p (l.dropWhile p)
  rw [hn]
  exact noHH_take n _ (noHH_dropWhile p l h)

theorem hwsSpace_stripBy (p : Char → Bool) (l : List Char) (h : hwsSpace l = true) :
    hwsSpace (stripBy p l) = true := by
  unfold stripBy
  obtain ⟨n, hn⟩ := dropTrailIf_eq_take p (l.dropWhile p)
  rw [hn]
  exact hwsSpace_take n _ (hwsSpace_dropWhile p l h)

theorem noTriple_stripBy (p : Char → Bool) (l : List Char) (h : noTriple l = true) :
    noTriple (stripBy p l) = true := by
  unfold stripBy
  obtain ⟨n, hn⟩ := dropTrailIf_eq_take p (l.dropWhile p)
  rw [hn]
  exact noTriple_take n _ (noTriple_dropWhile p l h)

theorem isPyWS_of_isHWS {c : Char} (h : isHWS c = true) : isPyWS c = true := by
  simp only [isHWS, Bool.or_eq_true] at h
  simp only [isPyWS, Bool.or_eq_true]
  tauto

/-- Characters of the normalized form, after the strip step, satisfy all five
normal-form predicates. -/
theorem normalized_chars (l : List Char) :
    noHH (pyStripChars (collapseNL (collapseH l))) = true
    ∧ hwsSpace (pyStripChars (collapseNL (collapseH l))) = true
    ∧ noTriple (pyStripChars (collapseNL (collapseH l))) = true
    ∧ noLeadB isPyWS (pyStripChars (collapseNL (collapseH l))) = true
    ∧ noTrailB isPyWS (pyStripChars (collapseNL (collapseH l))) = true := by
  refine ⟨?_, ?_, ?_, ?_, ?_⟩
  · exact noHH_stripBy _ _ (collapseNL_noHH _ (collapseH_noHH l))
  · exact hwsSpace_stripBy _ _ (collapseNL_hwsSpace _ (collapseH_hwsSpace l))
  · exact noTriple_stripBy _ _ (collapseNL_noTriple _)
  · exact noLead_dropTrailIf _ _ (noLead_dropWhile _ _)
  · exact noTrail_dropTrailIf _ _

/-- C8: whitespace normalization is idempotent — for every string `s`,
`normalize_ws (normalize_ws s) = normalize_ws s`. -/
theorem normalize_ws_idempotent (s : String) :
    normalize_ws (normalize_ws s) = normalize_ws s := by
  obtain ⟨h1, h2, h3, h4, h5⟩ := normalized_chars s.data
  show String.mk (pyStripChars (collapseNL (collapseH
      (pyStripChars (collapseNL (collapseH s.data))))))
    = String.mk (pyStripChars (collapseNL (collapseH s.data)))
  rw [collapseH_id _ h1 h2, collapseNL_id _ h3]
  show String.mk (stripBy isPyWS (pyStripChars (collapseNL (collapseH s.data)))) = _
  rw [stripBy_id _ _ h4 h5]

/-- C7: `parse_date_from_slug "article-150324-notes"` is `2024-03-15` and
`parse_date_from_slug "no-date-here"` is absent; a slug with a six-digit
DDMMYY run is interpreted with year `2000+YY` when `YY < 70` and `1900+YY`
otherwise, and calendar-invalid combinations (such as day 31 in month 02)
yield absent. -/
theorem parse_date_from_slug_spec :
    parse_date_from_slug "article-150324-notes" = some "2024-03-15"
    ∧ parse_date_from_slug "no-date-here" = none
    ∧ parse_date_from_slug "post-310224" = none
    ∧ (∀ (slug : String) (a b c d e f : Char),
        firstSixDigits slug.data = some [a, b, c, d, e, f] →
        parse_date_from_slug slug
          = (if validDate
                (if 10 * digitVal e + digitVal f < 70
                  then 2000 + (10 * digitVal e + digitVal f)
                  else 1900 + (10 * digitVal e + digitVal f))
                (10 * digitVal c + digitVal d) (10 * digitVal a + digitVal b)
            then some (isoDate
                (if 10 * digitVal e + digitVal f < 70
                  then 2000 + (10 * digitVal e + digitVal f)
                  else 1900 + (10 * digitVal e + digitVal f))
                (10 * digitVal c + digitVal d) (10 * digitVal a + digitVal b))
            else none)) := by
  refine ⟨by decide, by decide, by decide, ?_⟩
  intro slug a b c d e f h
  unfold parse_date_from_slug
  rw [h]

/-- Witness for `parse_date_from_slug_spec` at the concrete slug of the spec. -/
theorem parse_date_from_slug_spec_witness :
    firstSixDigits ("article-150324-notes".data) = some ['1', '5', '0', '3', '2', '4']
    ∧ parse_date_from_slug "article-150324-notes" = some "2024-03-15" :=
  ⟨by decide, by
    have h := parse_date_from_slug_spec.2.2.2 "article-150324-notes"
      '1' '5' '0' '3' '2' '4' (by decide)
    rw [h]
    decide⟩

theorem finv_init : FInv finit := by
  refine ⟨fun d => ?_, fun d => ?_, fun d => ?_⟩ <;> simp [finit]

theorem enqueue_cases (adm : String → Bool) (st : Frontier) (u0 : String) :
    enqueue adm st u0 = st
    ∨ (¬(urldefrag0 u0 = "") ∧ urldefrag0 u0 ∉ st.seen ∧ adm (urldefrag0 u0) = true
        ∧ enqueue adm st u0
          = ⟨st.queue ++ [urldefrag0 u0], urldefrag0 u0 :: st.seen,
              st.hist ++ [urldefrag0 u0]⟩) := by
  unfold enqueue
  by_cases hg : (!(urldefrag0 u0 == "") && !(st.seen.contains (urldefrag0 u0))
      && adm (urldefrag0 u0)) = true
  · right
    have hg2 := hg
    simp only [Bool.and_eq_true, Bool.not_eq_true'] at hg2
    obtain ⟨⟨h1, h2⟩, h3⟩ := hg2
    have h2m : urldefrag0 u0 ∉ st.seen := by
      simp at h2
      exact h2
    refine ⟨by simpa using h1, h2m, h3, ?_⟩
    rw [if_pos hg]
  · left
    rw [if_neg hg]

theorem finv_enqueue (adm : String → Bool) (st : Frontier) (u0 : String) (h : FInv st) :
    FInv (enqueue adm st u0) := by
  rcases enqueue_cases adm st u0 with heq | ⟨hne, hseen, hadm, heq⟩
  · rw [heq]; exact h
  · rw [heq]
    obtain ⟨hio, hcount, hq⟩ := h
    have hnohist : urldefrag0 u0 ∉ st.hist := fun hmem => hseen ((hio _).mpr hmem)
    refine ⟨fun d => ?_, fun d => ?_, fun d => ?_⟩
    · simp only [List.mem_cons, List.mem_append, List.mem_singleton]
      rw [hio d]
      tauto
    · rw [List.count_append]
      by_cases hd : d = urldefrag0 u0
      · have h0 : st.hist.count (urldefrag0 u0) = 0 := List.count_eq_zero.mpr hnohist
        rw [hd, h0]
        simp
      · have h0 : List.count d [urldefrag0 u0] = 0 :=
          List.count_eq_zero.mpr (by simpa using hd)
        rw [h0]
        simpa using hcount d
    · rw [List.count_append, List.count_append]
      exact Nat.add_le_add (hq d) (Nat.le_refl _)

theorem finv_step (adm : String → Bool) (st : Frontier) (op : FOp) (h : FInv st) :
    FInv (fstep adm st op) := by
  cases op with
  | enq u => exact finv_enqueue adm st u h
  | deq =>
    obtain ⟨hio, hcount, hq⟩ := h
    refine ⟨hio, hcount, fun d => ?_⟩
    refine Nat.le_trans ?_ (hq d)
    cases hqv : st.queue with
    | nil => simp [fstep, hqv]
    | cons q qs => simp [fstep, hqv, List.count_cons]

theorem finv_run (adm : String → Bool) : ∀ (ops : List FOp) (st : Frontier), FInv st →
    FInv (frun adm st ops)
  | [], st, h => h
  | op :: ops, st, h => by
    show FInv (frun adm (fstep adm st op) ops)
    exact finv_run adm ops (fstep adm st op) (finv_step adm st op h)

theorem hist_mono_step (adm : String → Bool) (st : Frontier) (op : FOp) {d : String}
    (h : d ∈ st.hist) : d ∈ (fstep adm st op).hist := by
  cases op with
  | enq u =>
    rcases enqueue_cases adm st u with heq | ⟨_, _, _, heq⟩
    · show d ∈ (enqueue adm st u).hist
      rw [heq]; exact h
    · show d ∈ (enqueue adm st u).hist
      rw [heq]
      simp only [List.mem_append]
      exact Or.inl h
  | deq => exact h

theorem hist_mono_run (adm : String → Bool) : ∀ (ops : List FOp) (st : Frontier) {d : String},
    d ∈ st.hist → d ∈ (frun adm st ops).hist
  | [], _, _, h => h
  | op :: ops, st, _, h =>
    hist_mono_run adm ops (fstep adm st op) (hist_mono_step adm st op h)

theorem enqueue_ensures_hist (adm : String → Bool) (st : Frontier) (u0 : String)
    (hinv : FInv st) (hne : ¬(urldefrag0 u0 = "")) (hadm : adm (urldefrag0 u0) = true) :
    urldefrag0 u0 ∈ (enqueue adm st u0).hist := by
  by_cases hseen : urldefrag0 u0 ∈ st.seen
  · have hstay : enqueue adm st u0 = st := by
      unfold enqueue
      rw [if_neg]
      intro hg
      simp only [Bool.and_eq_true, Bool.not_eq_true'] at hg
      obtain ⟨⟨_, h2⟩, _⟩ := hg
      simp at h2
      exact h2 hseen
    rw [hstay]
    exact (hinv.1 _).mp hseen
  · have heq : enqueue adm st u0
        = ⟨st.queue ++ [urldefrag0 u0], urldefrag0 u0 :: st.seen,
            st.hist ++ [urldefrag0 u0]⟩ := by
      unfold enqueue
      rw [if_pos]
      simp only [Bool.and_eq_true, Bool.not_eq_true']
      refine ⟨⟨by simpa using hne, ?_⟩, hadm⟩
      cases hc : st.seen.contains (urldefrag0 u0)
      · rfl
      · exact absurd (List.mem_of_elem_eq_true hc) hseen
    rw [heq]
    simp

/-- C1: two URLs equal after defragmentation yield exactly one lifetime
frontier entry, no matter where their enqueues fall in the operation
sequence (`hist` counts every append ever made, and the live queue holds at
most one copy); and enqueueing a URL whose defragmentation is already in the
seen-set changes nothing. -/
theorem enqueue_once_per_defrag :
    (∀ (adm : String → Bool) (ops : List FOp) (u1 u2 : String),
      urldefrag0 u1 = urldefrag0 u2 →
      ¬(urldefrag0 u1 = "") →
      adm (urldefrag0 u1) = true →
      FOp.enq u1 ∈ ops → FOp.enq u2 ∈ ops →
      (frun adm finit ops).hist.count (urldefrag0 u1) = 1
        ∧ (frun adm finit ops).queue.count (urldefrag0 u1) ≤ 1)
    ∧ (∀ (adm : String → Bool) (st : Frontier) (u : String),
      urldefrag0 u ∈ st.seen → enqueue adm st u = st) := by
  constructor
  · intro adm ops u1 u2 _ hne hadm hmem1 _
    obtain ⟨l, r, rfl⟩ := List.append_of_mem hmem1
    have hsplit : frun adm finit (l ++ FOp.enq u1 :: r)
        = frun adm (fstep adm (frun adm finit l) (FOp.enq u1)) r := by
      unfold frun
      rw [List.foldl_append, List.foldl_cons]
    have hinv1 : FInv (frun adm finit l) := finv_run adm l finit finv_init
    have hmemh : urldefrag0 u1 ∈ (fstep adm (frun adm finit l) (FOp.enq u1)).hist :=
      enqueue_ensures_hist adm (frun adm finit l) u1 hinv1 hne hadm
    have hinv2 : FInv (frun adm (fstep adm (frun adm finit l) (FOp.enq u1)) r) :=
      finv_run adm r _ (finv_step adm _ _ hinv1)
    have hmemfin : urldefrag0 u1
        ∈ (frun adm (fstep adm (frun adm finit l) (FOp.enq u1)) r).hist :=
      hist_mono_run adm r _ hmemh
    rw [hsplit]
    constructor
    · exact Nat.le_antisymm (hinv2.2.1 _) (List.count_pos_iff.mpr hmemfin)
    · exact Nat.le_trans (hinv2.2.2 _) (hinv2.2.1 _)
  · intro adm st u hseen
    unfold enqueue
    rw [if_neg]
    intro hg
    simp only [Bool.and_eq_true, Bool.not_eq_true'] at hg
    obtain ⟨⟨_, h2⟩, _⟩ := hg
    simp at h2
    exact h2 hseen

/-- Witness for `enqueue_once_per_defrag`: two fragment-variants of one URL,
with a dequeue in between, leave exactly one lifetime entry. -/
theorem enqueue_once_per_defrag_witness :
    urldefrag0 "http://a/x#one" = urldefrag0 "http://a/x#two"
    ∧ ¬(urldefrag0 "http://a/x#one" = "")
    ∧ (frun (fun _ => true) finit
        [FOp.enq "http://a/x#one", FOp.deq, FOp.enq "http://a/x#two"]).hist.count
          (urldefrag0 "http://a/x#one") = 1 := by
  refine ⟨by decide, by decide, ?_⟩
  exact (enqueue_once_per_defrag.1 (fun _ => true)
    [FOp.enq "http://a/x#one", FOp.deq, FOp.enq "http://a/x#two"]
    "http://a/x#one" "http://a/x#two" (by decide) (by decide) rfl
    (by simp) (by simp)).1

/-! ### Defragmentation does not change scheme, host or path -/

theorem splitFirst_fst (sep : Char) : ∀ l : List Char,
    (splitFirst sep l).1 = l.takeWhile (fun c => !(c == sep))
  | [] => rfl
  | c :: cs => by
    by_cases hc : (c == sep) = true
    · simp [splitFirst, hc, List.takeWhile_cons]
    · simp only [Bool.not_eq_true] at hc
      simp [splitFirst, hc, List.takeWhile_cons, splitFirst_fst sep cs]

theorem splitFirst_no_sep (sep : Char) : ∀ l : List Char,
    (∀ c ∈ l, (c == sep) = false) → splitFirst sep l = (l, none)
  | [], _ => rfl
  | c :: cs, h => by
    have hc : (c == sep) = false := h c (by simp)
    simp [splitFirst, hc, splitFirst_no_sep sep cs (fun d hd => h d (by simp [hd]))]

theorem urlparse_defrag (u : String) :
    urlparse (urldefrag0 u) = { urlparse u with fragment := "" } := by
  have hns : splitFirst '#' (u.data.takeWhile (fun c => !(c == '#')))
      = (u.data.takeWhile (fun c => !(c == '#')), none) := by
    apply splitFirst_no_sep
    intro c hc
    have := List.mem_takeWhile_imp hc
    simpa using this
  have e2 : splitFirst '#' u.data
      = (u.data.takeWhile (fun c => !(c == '#')), (splitFirst '#' u.data).2) := by
    rw [← splitFirst_fst '#' u.data]
  show parseUrlChars ((String.mk (u.data.takeWhile (fun c => !(c == '#')))).data)
      = { parseUrlChars u.data with fragment := "" }
  unfold parseUrlChars
  rw [show (String.mk (u.data.takeWhile (fun c => !(c == '#')))).data
      = u.data.takeWhile (fun c => !(c == '#')) from rfl]
  rw [hns, e2]
  rfl

/-- C2: a URL whose host (case-insensitively) differs from the start URL's
host is never enqueued — neither the queue nor the seen-set changes,
whatever the path, scheme, or robots oracle say — and `allowed` performs its
checks in the order scheme, same-host, path-regex, robots, short-circuiting
on the first failure (`admissionInOrder` is that chain written out). -/
theorem different_host_never_enqueued :
    (∀ (cfg : CrawlCfg) (st : Frontier) (u : String),
      strLower (urlparse u).netloc ≠ strLower (urlparse cfg.start_url).netloc →
      enqueue (allowed cfg) st u = st)
    ∧ (∀ (cfg : CrawlCfg) (u : String), allowed cfg u = admissionInOrder cfg u) := by
  constructor
  · intro cfg st u hdiff
    have hnet : (urlparse (urldefrag0 u)).netloc = (urlparse u).netloc := by
      rw [urlparse_defrag u]
    have hsame : same_site (urldefrag0 u) cfg.start_url = false := by
      unfold same_site
      rw [hnet]
      cases hv : (strLower (urlparse u).netloc == strLower (urlparse cfg.start_url).netloc)
      · rfl
      · exact absurd (by simpa using hv) hdiff
    have hall : allowed cfg (urldefrag0 u) = false := by
      unfold allowed
      rw [hsame]
      simp
    unfold enqueue
    rw [if_neg]
    simp [hall]
  · intro cfg u
    unfold allowed admissionInOrder
    cases hA : is_http_url u <;> cases hB : same_site u cfg.start_url <;> simp

/-- Witness for `different_host_never_enqueued`: an off-host URL with an
allowed path and a permissive robots oracle is still rejected. -/
theorem different_host_never_enqueued_witness :
    strLower (urlparse "https://other.org/focodemag/x").netloc
      ≠ strLower (urlparse "http://www.example.com/").netloc
    ∧ enqueue (allowed ⟨"http://www.example.com/", fun _ => true, none⟩) finit
        "https://other.org/focodemag/x" = finit :=
  ⟨by decide,
    different_host_never_enqueued.1 ⟨"http://www.example.com/", fun _ => true, none⟩
      finit "https://other.org/focodemag/x" (by decide)⟩

theorem addImage_headingOnly (join : String → String → String) (base : String)
    (st : List ContentBlock × List ImgEntry) (img : Node) :
    ((addImage join base st img).1).filterMap headingOnly
      = st.1.filterMap headingOnly := by
  unfold addImage
  cases hsrc : (pyTruthy (attrOf img "src")).or (pyTruthy (attrOf img "data-src")) with
  | none => rfl
  | some s0 => simp [List.filterMap_append, headingOnly]

theorem foldl_addImage_headingOnly (join : String → String → String) (base : String) :
    ∀ (imgs : List Node) (st : List ContentBlock × List ImgEntry),
    ((imgs.foldl (addImage join base) st).1).filterMap headingOnly
      = st.1.filterMap headingOnly
  | [], _ => rfl
  | img :: imgs, st => by
    show ((imgs.foldl (addImage join base) (addImage join base st img)).1).filterMap
        headingOnly = st.1.filterMap headingOnly
    rw [foldl_addImage_headingOnly join base imgs (addImage join base st img)]
    exact addImage_headingOnly join base st img

theorem processEl_headingOnly (join : String → String → String) (base : String)
    (st : List ContentBlock × List ImgEntry) (el : Node)
    (hel : isElemWithTagIn blockTagList el = true) :
    ((processEl join base st el).1).filterMap headingOnly
      = st.1.filterMap headingOnly ++ (headingEmit el).toList := by
  cases el with
  | txt s => exact absurd hel (by simp [isElemWithTagIn])
  | el t a cs =>
    have hmem : t ∈ blockTagList := by
      simpa [isElemWithTagIn] using hel
    simp only [blockTagList, List.mem_cons, List.not_mem_nil, or_false] at hmem
    rcases hmem with rfl | rfl | rfl | rfl | rfl | rfl | rfl | rfl | rfl | rfl | rfl
    · rw [show processEl join base st (Node.el "h1" a cs)
          = (if visText (Node.el "h1" a cs) == "" then st
            else (st.1 ++ [ContentBlock.heading 1 (visText (Node.el "h1" a cs))], st.2))
          from rfl,
        show headingEmit (Node.el "h1" a cs)
          = (if !(visText (Node.el "h1" a cs) == "")
            then some (ContentBlock.heading 1 (visText (Node.el "h1" a cs))) else none)
          from rfl]
      by_cases ht : visText (Node.el "h1" a cs) == "" <;>
        simp [ht, List.filterMap_append, headingOnly]
    · rw [show processEl join base st (Node.el "h2" a cs)
          = (if visText (Node.el "h2" a cs) == "" then st
            else (st.1 ++ [ContentBlock.heading 2 (visText (Node.el "h2" a cs))], st.2))
          from rfl,
        show headingEmit (Node.el "h2" a cs)
          = (if !(visText (Node.el "h2" a cs) == "")
            then some (ContentBlock.heading 2 (visText (Node.el "h2" a cs))) else none)
          from rfl]
      by_cases ht : visText (Node.el "h2" a cs) == "" <;>
        simp [ht, List.filterMap_append, headingOnly]
    · rw [show processEl join base st (Node.el "h3" a cs)
          = (if visText (Node.el "h3" a cs) == "" then st
            else (st.1 ++ [ContentBlock.heading 3 (visText (Node.el "h3" a cs))], st.2))
          from rfl,
        show headingEmit (Node.el "h3" a cs)
          = (if !(visText (Node.el "h3" a cs) == "")
            then some (ContentBlock.heading 3 (visText (Node.el "h3" a cs))) else none)
          from rfl]
      by_cases ht : visText (Node.el "h3" a cs) == "" <;>
        simp [ht, List.filterMap_append, headingOnly]
    · rw [show processEl join base st (Node.el "h4" a cs)
          = (if visText (Node.el "h4" a cs) == "" then st
            else (st.1 ++ [ContentBlock.heading 4 (visText (Node.el "h4" a cs))], st.2))
          from rfl,
        show headingEmit (Node.el "h4" a cs)
          = (if !(visText (Node.el "h4" a cs) == "")
            then some (ContentBlock.heading 4 (visText (Node.el "h4" a cs))) else none)
          from rfl]
      by_cases ht : visText (Node.el "h4" a cs) == "" <;>
        simp [ht, List.filterMap_append, headingOnly]
    · rw [show processEl join base st (Node.el "h5" a cs)
          = (if visText (Node.el "h5" a cs) == "" then st
            else (st.1 ++ [ContentBlock.heading 5 (visText (Node.el "h5" a cs))], st.2))
          from rfl,
        show headingEmit (Node.el "h5" a cs)
          = (if !(visText (Node.el "h5" a cs) == "")
            then some (ContentBlock.heading 5 (visText (Node.el "h5" a cs))) else none)
          from rfl]
      by_cases ht : visText (Node.el "h5" a cs) == "" <;>
        simp [ht, List.filterMap_append, headingOnly]
    · rw [show processEl join base st (Node.el "p" a cs)
          = (if !(find_all ["img"] (Node.el "p" a cs)).isEmpty
                && visText (Node.el "p" a cs) == "" then
              (find_all ["img"] (Node.el "p" a cs)).foldl (addImage join base) st
            else if visText (Node.el "p" a cs) == "" then st
            else (st.1 ++ [ContentBlock.paragraph (visText (Node.el "p" a cs))], st.2))
          from rfl,
        show headingEmit (Node.el "p" a cs) = none from rfl]
      split_ifs with h1 h2
      · rw [foldl_addImage_headingOnly]
        simp
      · simp
      · simp [List.filterMap_append, headingOnly]
    · rw [show processEl join base st (Node.el "ul" a cs)
          = (if (listItems (Node.el "ul" a cs)).isEmpty then st
            else (st.1 ++ [ContentBlock.list (listItems (Node.el "ul" a cs))], st.2))
          from rfl,
        show headingEmit (Node.el "ul" a cs) = none from rfl]
      split_ifs <;> simp [List.filterMap_append, headingOnly]
    · rw [show processEl join base st (Node.el "ol" a cs)
          = (if (listItems (Node.el "ol" a cs)).isEmpty then st
            else (st.1 ++ [ContentBlock.list (listItems (Node.el "ol" a cs))], st.2))
          from rfl,
        show headingEmit (Node.el "ol" a cs) = none from rfl]
      split_ifs <;> simp [List.filterMap_append, headingOnly]
    · rw [show processEl join base st (Node.el "blockquote" a cs)
          = (if visText (Node.el "blockquote" a cs) == "" then st
            else (st.1 ++ [ContentBlock.quote (visText (Node.el "blockquote" a cs))], st.2))
          from rfl,
        show headingEmit (Node.el "blockquote" a cs) = none from rfl]
      split_ifs <;> simp [List.filterMap_append, headingOnly]
    · rw [show processEl join base st (Node.el "pre" a cs)
          = (if preText (Node.el "pre" a cs) == "" then st
            else (st.1 ++ [ContentBlock.code (preText (Node.el "pre" a cs))], st.2))
          from rfl,
        show headingEmit (Node.el "pre" a cs) = none from rfl]
      split_ifs <;> simp [List.filterMap_append, headingOnly]
    · rw [show processEl join base st (Node.el "img" a cs)
          = addImage join base st (Node.el "img" a cs) from rfl,
        show headingEmit (Node.el "img" a cs) = none from rfl]
      rw [addImage_headingOnly]
      simp

theorem foldl_processEl_headingOnly (join : String → String → String) (base : String) :
    ∀ (els : List Node), (∀ el ∈ els, isElemWithTagIn blockTagList el = true) →
    ∀ st : List ContentBlock × List ImgEntry,
    ((els.foldl (processEl join base) st).1).filterMap headingOnly
      = st.1.filterMap headingOnly ++ els.filterMap headingEmit
  | [], _, st => by simp
  | el :: els, h, st => by
    show ((els.foldl (processEl join base) (processEl join base st el)).1).filterMap
        headingOnly = _
    rw [foldl_processEl_headingOnly join base els
      (fun e he => h e (by simp [he])) (processEl join base st el)]
    rw [processEl_headingOnly join base st el (h el (by simp))]
    rw [List.filterMap_cons]
    cases hE : headingEmit el <;> simp [List.append_assoc]

theorem headingEmit_none_of_not_block (x : Node)
    (hx : isElemWithTagIn blockTagList x = false) : headingEmit x = none := by
  cases x with
  | txt s => rfl
  | el t a cs =>
    cases hg : ((t == "h1" || t == "h2" || t == "h3" || t == "h4" || t == "h5")
        && !(normalize_ws (getText " " true (Node.el t a cs)) == "")) with
    | false =>
      rw [show headingEmit (Node.el t a cs)
          = (if ((t == "h1" || t == "h2" || t == "h3" || t == "h4" || t == "h5")
              && !(normalize_ws (getText " " true (Node.el t a cs)) == "")) then
            some (ContentBlock.heading (headingNumeralSpec t)
              (normalize_ws (getText " " true (Node.el t a cs))))
          else none) from rfl]
      simp [hg]
    | true =>
      exfalso
      have ht5 := (Bool.and_eq_true _ _ |>.mp hg).1
      have hmem : t ∈ blockTagList := by
        simp only [Bool.or_eq_true, beq_iff_eq] at ht5
        rcases ht5 with (((rfl | rfl) | rfl) | rfl) | rfl <;> simp [blockTagList]
      simp [isElemWithTagIn] at hx
      exact hx hmem

theorem filterMap_over_filter (p : Node → Bool) (f : Node → Option ContentBlock)
    (hpf : ∀ x, p x = false → f x = none) : ∀ l : List Node,
    (l.filter p).filterMap f = l.filterMap f
  | [] => rfl
  | x :: l => by
    by_cases hp : p x = true
    · simp [List.filter_cons, hp, List.filterMap_cons, filterMap_over_filter p f hpf l]
    · have hpx : p x = false := by
        cases hv : p x
        · rfl
        · exact absurd hv hp
      have hf : f x = none := hpf x hpx
      simp [List.filter_cons, hpx, List.filterMap_cons, hf,
        filterMap_over_filter p f hpf l]

/-- C3 (amended): the heading blocks that block extraction emits are, in
document order, exactly one `heading` block per `h1`..`h5` descendant of the
container with non-empty normalized text, its level being the numeral in the
tag name and its text that normalized text (`headingEmit`). Elements tagged
`h6` are not in the tag list the source iterates, so they emit nothing. -/
theorem heading_blocks_characterized (join : String → String → String)
    (container : Node) (base : String) :
    ((extract_blocks join container base).1).filterMap headingOnly
      = (descendants container).filterMap headingEmit := by
  unfold extract_blocks find_all
  rw [foldl_processEl_headingOnly join base _
    (fun e he => List.of_mem_filter he) ([], [])]
  rw [filterMap_over_filter _ _ headingEmit_none_of_not_block]
  simp

/-- Counterexample to C3 as stated for level 6: an `h6` heading with
non-empty normalized text contributes no block at all. -/
theorem h6_heading_emits_no_block :
    normalize_ws (getText " " true (Node.el "h6" [] [Node.txt "Six"])) = "Six"
    ∧ extract_blocks (fun _ u => u)
        (Node.el "div" [] [Node.el "h6" [] [Node.txt "Six"]]) "http://e/"
      = ([], []) :=
  ⟨rfl, rfl⟩

/-- C4: noise stripping followed by block extraction on the fixture yields
exactly heading(1, "Title"), the two paragraphs and the list — in document
order — and nothing from the social-share subtree, for every `urljoin`
collaborator (no image is ever resolved). -/
theorem fixture_extraction (join : String → String → String) :
    extract_blocks join (strip_unwanted fixtureC4) "http://www.example.com/post"
      = ([ContentBlock.heading 1 "Title", ContentBlock.paragraph "First paragraph.",
          ContentBlock.paragraph "Second paragraph.", ContentBlock.list ["A", "B"]], []) :=
  rfl

/-! ## Images list versus image blocks (C10) -/

theorem addImage_images (join : String → String → String) (base : String)
    (st : List ContentBlock × List ImgEntry) (img : Node)
    (h : st.2 = st.1.filterMap imagePayload) :
    (addImage join base st img).2 = ((addImage join base st img).1).filterMap imagePayload := by
  unfold addImage
  cases hsrc : (pyTruthy (attrOf img "src")).or (pyTruthy (attrOf img "data-src")) with
  | none => exact h
  | some s0 => simp [List.filterMap_append, imagePayload, h]

theorem foldl_addImage_images (join : String → String → String) (base : String) :
    ∀ (imgs : List Node) (st : List ContentBlock × List ImgEntry),
    st.2 = st.1.filterMap imagePayload →
    (imgs.foldl (addImage join base) st).2
      = ((imgs.foldl (addImage join base) st).1).filterMap imagePayload
  | [], _, h => h
  | img :: imgs, st, h =>
    foldl_addImage_images join base imgs (addImage join base st img)
      (addImage_images join base st img h)

theorem processEl_images (join : String → String → String) (base : String)
    (st : List ContentBlock × List ImgEntry) (el : Node)
    (h : st.2 = st.1.filterMap imagePayload) :
    (processEl join base st el).2 = ((processEl join base st el).1).filterMap imagePayload := by
  simp only [processEl]
  split_ifs
  · exact addImage_images join base st el h
  · exact h
  · simp [List.filterMap_append, imagePayload, h]
  · exact foldl_addImage_images join base (find_all ["img"] el) st h
  · exact h
  · simp [List.filterMap_append, imagePayload, h]
  · exact h
  · simp [List.filterMap_append, imagePayload, h]
  · exact h
  · simp [List.filterMap_append, imagePayload, h]
  · exact h
  · simp [List.filterMap_append, imagePayload, h]
  · exact h

theorem foldl_processEl_images (join : String → String → String) (base : String) :
    ∀ (els : List Node) (st : List ContentBlock × List ImgEntry),
    st.2 = st.1.filterMap imagePayload →
    (els.foldl (processEl join base) st).2
      = ((els.foldl (processEl join base) st).1).filterMap imagePayload
  | [], _, h => h
  | el :: els, st, h =>
    foldl_processEl_images join base els (processEl join base st el)
      (processEl_images join base st el h)

/-- C10: the `images` list returned by block extraction is, in order,
exactly the `(src, alt)` payloads of the image blocks of the returned block
list; and an `img` element with neither a truthy `src` nor a truthy
`data-src` contributes neither a block nor an images entry. -/
theorem images_match_image_blocks :
    (∀ (join : String → String → String) (container : Node) (base : String),
      (extract_blocks join container base).2
        = ((extract_blocks join container base).1).filterMap imagePayload)
    ∧ (∀ (join : String → String → String) (base : String)
        (st : List ContentBlock × List ImgEntry)
        (a : List (String × String)) (cs : List Node),
      pyTruthy (attrOf (Node.el "img" a cs) "src") = none →
      pyTruthy (attrOf (Node.el "img" a cs) "data-src") = none →
      processEl join base st (Node.el "img" a cs) = st) := by
  constructor
  · intro join container base
    exact foldl_processEl_images join base (find_all blockTagList container) ([], []) rfl
  · intro join base st a cs h1 h2
    rw [show processEl join base st (Node.el "img" a cs)
        = addImage join base st (Node.el "img" a cs) from rfl]
    unfold addImage
    rw [h1, h2]
    rfl

/-- Witness for `images_match_image_blocks`: an `img` carrying only an `alt`
attribute adds nothing. -/
theorem images_match_image_blocks_witness :
    pyTruthy (attrOf (Node.el "img" [("alt", "x")] []) "src") = none
    ∧ pyTruthy (attrOf (Node.el "img" [("alt", "x")] []) "data-src") = none
    ∧ processEl (fun _ u => u) "http://e/" ([], []) (Node.el "img" [("alt", "x")] [])
      = ([], []) :=
  ⟨rfl, rfl,
    images_match_image_blocks.2 (fun _ u => u) "http://e/" ([], [])
      [("alt", "x")] [] rfl rfl⟩

theorem processEntries_no_xml (f : String → Option String) (p : String → Option XElem)
    (a : String → Bool) : ∀ (urls : List String) (st : Frontier),
    (∀ u ∈ urls, endsWithStr ".xml" u = false) →
    processEntries f p a st urls = enqueueAll a st urls
  | [], st, _ => rfl
  | u :: rest, st, h => by
    have hu : endsWithStr ".xml" u = false := h u (by simp)
    rw [show processEntries f p a st (u :: rest)
        = (if endsWithStr ".xml" u then
            (match f u with
              | none => st
              | some nxml =>
                processEntries f p a (enqueueAll a st (parse_sitemap_urls p nxml)) rest)
          else processEntries f p a (enqueue a st u) rest) from rfl]
    rw [hu]
    simp only [Bool.false_eq_true, if_false]
    rw [processEntries_no_xml f p a rest (enqueue a st u) (fun v hv => h v (by simp [hv]))]
    rfl

/-- C5 (amended): the parse recognizes the document shape by the root
element's local name — a sitemap-index yields its `sitemap/loc` entries, a
url-set its `url/loc` entries — but whether an entry is then followed as a
nested sitemap is decided per URL by its `.xml` suffix, not by the
recognized shape: entries not ending in `.xml` are enqueued directly (the
fetch oracle is never consulted for them), and an entry ending in `.xml` is
fetched and parsed exactly once, its page URLs enqueued directly with no
deeper recursion. -/
theorem sitemap_dispatch_amended :
    (∀ (parseX : String → Option XElem) (xml : String) (root : XElem),
      parseX xml = some root →
      (endsWithStr "sitemapindex" (xtag root) = true →
        parse_sitemap_urls parseX xml = sitemapLocs "sitemap" root)
      ∧ (endsWithStr "sitemapindex" (xtag root) = false →
        endsWithStr "urlset" (xtag root) = true →
        parse_sitemap_urls parseX xml = sitemapLocs "url" root))
    ∧ (∀ (f f2 : String → Option String) (p p2 : String → Option XElem)
        (a : String → Bool) (st : Frontier) (urls : List String),
      (∀ u ∈ urls, endsWithStr ".xml" u = false) →
      processEntries f p a st urls = enqueueAll a st urls
        ∧ processEntries f p a st urls = processEntries f2 p2 a st urls)
    ∧ (∀ (f : String → Option String) (p : String → Option XElem) (a : String → Bool)
        (st : Frontier) (u : String) (rest : List String) (x : String),
      endsWithStr ".xml" u = true → f u = some x →
      processEntries f p a st (u :: rest)
        = processEntries f p a (enqueueAll a st (parse_sitemap_urls p x)) rest) := by
  refine ⟨?_, ?_, ?_⟩
  · intro parseX xml root h
    constructor
    · intro hidx
      unfold parse_sitemap_urls
      rw [h]
      simp [hidx]
    · intro hnidx hurl
      unfold parse_sitemap_urls
      rw [h]
      simp [hnidx, hurl]
  · intro f f2 p p2 a st urls h
    refine ⟨processEntries_no_xml f p a urls st h, ?_⟩
    rw [processEntries_no_xml f p a urls st h, processEntries_no_xml f2 p2 a urls st h]
  · intro f p a st u rest x hxml hfu
    rw [show processEntries f p a st (u :: rest)
        = (if endsWithStr ".xml" u then
            (match f u with
              | none => st
              | some nxml =>
                processEntries f p a (enqueueAll a st (parse_sitemap_urls p nxml)) rest)
          else processEntries f p a (enqueue a st u) rest) from rfl]
    rw [hxml, hfu]
    rfl

/-- Witness for `sitemap_dispatch_amended`: a url-set root is recognized as
such, a plain page URL is enqueued directly, and an `.xml` entry is resolved
through the fetch oracle. -/
theorem sitemap_dispatch_amended_witness :
    endsWithStr "urlset" (xtag (XElem.mk (smNS ++ "urlset") none [])) = true
    ∧ parse_sitemap_urls (fun _ => some (XElem.mk (smNS ++ "urlset") none []))
        "x" = sitemapLocs "url" (XElem.mk (smNS ++ "urlset") none [])
    ∧ processEntries (fun _ => none) (fun _ => none) (fun _ => true) finit
        ["http://e/a", "http://e/b"]
      = enqueueAll (fun _ => true) finit ["http://e/a", "http://e/b"] := by
  refine ⟨by decide, ?_, ?_⟩
  · exact ((sitemap_dispatch_amended.1 (fun _ => some (XElem.mk (smNS ++ "urlset") none []))
      "x" (XElem.mk (smNS ++ "urlset") none []) rfl).2 (by decide) (by decide))
  · exact (sitemap_dispatch_amended.2.1 (fun _ => none) (fun _ => none)
      (fun _ => none) (fun _ => none) (fun _ => true) finit
      ["http://e/a", "http://e/b"] (by decide)).1

/-- Counterexample to C5 as stated: a url-set entry ending in `.xml` is NOT
enqueued directly as a page URL — it is fetched and parsed as a sitemap, and
only its contents are enqueued. -/
theorem urlset_xml_entry_not_enqueued :
    parse_sitemap_urls cexParse "X1" = ["http://e/sub.xml"]
    ∧ (seedFromSitemap cexFetch cexParse (fun _ => true) finit "sm1").queue
      = ["http://e/page"]
    ∧ "http://e/sub.xml" ∉ (seedFromSitemap cexFetch cexParse (fun _ => true)
        finit "sm1").seen := by
  refine ⟨?_, ?_, ?_⟩ <;> decide

theorem fetchAux_attempts_le (att : Nat → Except String (String × String))
    (rand : Nat → ℚ) : ∀ (r i : Nat) (last : Option String),
    (fetchAux att rand i r last).attempts ≤ r
  | 0, _, _ => Nat.le_refl 0
  | r + 1, i, last => by
    show (fetchAux att rand i (r + 1) last).attempts ≤ r + 1
    rw [show fetchAux att rand i (r + 1) last
        = (match att i with
          | .ok v => ⟨1, [], .ok v⟩
          | .error e =>
            if r = 0 then ⟨1, [], .error (some e)⟩
            else
              let rest := fetchAux att rand (i + 1) r (some e)
              ⟨rest.attempts + 1, sleepAmt rand i :: rest.sleeps, rest.outcome⟩)
        from rfl]
    cases att i with
    | ok v => simp
    | error e =>
      by_cases hr : r = 0
      · simp [hr]
      · simp only [hr, if_false]
        have := fetchAux_attempts_le att rand r (i + 1) (some e)
        simpa using Nat.succ_le_succ this

theorem fetchAux_success (att : Nat → Except String (String × String))
    (rand : Nat → ℚ) : ∀ (k r i : Nat) (last : Option String)
    (v : String × String), k < r → att (i + k) = .ok v →
    (∀ j, j < k → ∀ w, att (i + j) ≠ .ok w) →
    fetchAux att rand i r last
      = ⟨k + 1, (List.range k).map (fun j => sleepAmt rand (i + j)), .ok v⟩
  | 0, r, i, last, v, hk, hok, _ => by
    obtain ⟨r', rfl⟩ : ∃ r', r = r' + 1 := ⟨r - 1, by omega⟩
    rw [show fetchAux att rand i (r' + 1) last
        = (match att i with
          | .ok v => ⟨1, [], .ok v⟩
          | .error e =>
            if r' = 0 then ⟨1, [], .error (some e)⟩
            else
              let rest := fetchAux att rand (i + 1) r' (some e)
              ⟨rest.attempts + 1, sleepAmt rand i :: rest.sleeps, rest.outcome⟩)
        from rfl]
    rw [show att i = Except.ok v from by simpa using hok]
    simp
  | k + 1, r, i, last, v, hk, hok, hfail => by
    obtain ⟨r', rfl⟩ : ∃ r', r = r' + 1 := ⟨r - 1, by omega⟩
    have hi : ∀ w, att i ≠ .ok w := fun w hw =>
      hfail 0 (Nat.succ_pos k) w (by simpa using hw)
    obtain ⟨e, he⟩ : ∃ e, att i = .error e := by
      cases hv : att i with
      | ok w => exact absurd hv (hi w)
      | error e => exact ⟨e, rfl⟩
    have hr' : r' ≠ 0 := by omega
    rw [show fetchAux att rand i (r' + 1) last
        = (match att i with
          | .ok v => ⟨1, [], .ok v⟩
          | .error e =>
            if r' = 0 then ⟨1, [], .error (some e)⟩
            else
              let rest := fetchAux att rand (i + 1) r' (some e)
              ⟨rest.attempts + 1, sleepAmt rand i :: rest.sleeps, rest.outcome⟩)
        from rfl]
    rw [he]
    simp only [hr', if_false]
    rw [fetchAux_success att rand k r' (i + 1) (some e) v (by omega)
      (by rw [show i + 1 + k = i + (k + 1) from by omega]; exact hok)
      (fun j hj w hw => hfail (j + 1) (by omega) w
        (by rw [show i + (j + 1) = i + 1 + j from by omega]; exact hw))]
    have hmap : (List.range (k + 1)).map (fun j => sleepAmt rand (i + j))
        = sleepAmt rand i :: (List.range k).map (fun j => sleepAmt rand (i + 1 + j)) := by
      rw [List.range_succ_eq_map, List.map_cons, List.map_map]
      refine congrArg₂ _ (by rw [Nat.add_zero]) ?_
      have hfun : ((fun j => sleepAmt rand (i + j)) ∘ Nat.succ)
          = (fun j => sleepAmt rand (i + 1 + j)) := by
        funext j
        show sleepAmt rand (i + (j + 1)) = sleepAmt rand (i + 1 + j)
        exact congrArg (sleepAmt rand) (by omega)
      rw [hfun]
    rw [hmap]

theorem fetchAux_allfail (att : Nat → Except String (String × String))
    (rand : Nat → ℚ) : ∀ (r i : Nat) (last : Option String), 0 < r →
    (∀ j, j < r → ∀ w, att (i + j) ≠ .ok w) →
    ∃ e, att (i + (r - 1)) = .error e ∧ fetchAux att rand i r last
      = ⟨r, (List.range (r - 1)).map (fun j => sleepAmt rand (i + j)), .error (some e)⟩
  | 0, _, _, h0, _ => absurd h0 (by omega)
  | 1, i, last, _, hfail => by
    obtain ⟨e, he⟩ : ∃ e, att i = .error e := by
      cases hv : att i with
      | ok w => exact absurd hv (hfail 0 (by omega) w)
      | error e => exact ⟨e, rfl⟩
    refine ⟨e, he, ?_⟩
    rw [show fetchAux att rand i 1 last
        = (match att i with
          | .ok v => ⟨1, [], .ok v⟩
          | .error e => if (0 : Nat) = 0 then ⟨1, [], .error (some e)⟩
            else
              let rest := fetchAux att rand (i + 1) 0 (some e)
              ⟨rest.attempts + 1, sleepAmt rand i :: rest.sleeps, rest.outcome⟩)
        from rfl]
    rw [he]
    simp
  | r + 2, i, last, _, hfail => by
    obtain ⟨e0, he0⟩ : ∃ e0, att i = .error e0 := by
      cases hv : att i with
      | ok w => exact absurd hv (hfail 0 (by omega) w)
      | error e => exact ⟨e, rfl⟩
    obtain ⟨e, hatt, heq⟩ := fetchAux_allfail att rand (r + 1) (i + 1) (some e0)
      (by omega)
      (fun j hj w hw => hfail (j + 1) (by omega) w
        (by rw [show i + (j + 1) = i + 1 + j from by omega]; exact hw))
    refine ⟨e, ?_, ?_⟩
    · rw [show i + (r + 2 - 1) = i + 1 + (r + 1 - 1) from by omega]
      exact hatt
    · rw [show fetchAux att rand i (r + 2) last
          = (match att i with
            | .ok v => ⟨1, [], .ok v⟩
            | .error e => if r + 1 = 0 then ⟨1, [], .error (some e)⟩
              else
                let rest := fetchAux att rand (i + 1) (r + 1) (some e)
                ⟨rest.attempts + 1, sleepAmt rand i :: rest.sleeps, rest.outcome⟩)
          from rfl]
      rw [he0]
      simp only [Nat.succ_ne_zero, if_false]
      rw [heq]
      have hmap : (List.range (r + 1)).map (fun j => sleepAmt rand (i + j))
          = sleepAmt rand i :: (List.range r).map (fun j => sleepAmt rand (i + 1 + j)) := by
        rw [List.range_succ_eq_map, List.map_cons, List.map_map]
        refine congrArg₂ _ (by rw [Nat.add_zero]) ?_
        have hfun : ((fun j => sleepAmt rand (i + j)) ∘ Nat.succ)
            = (fun j => sleepAmt rand (i + 1 + j)) := by
          funext j
          show sleepAmt rand (i + (j + 1)) = sleepAmt rand (i + 1 + j)
          exact congrArg (sleepAmt rand) (by omega)
        rw [hfun]
      rw [show (r + 2 - 1) = r + 1 from by omega, hmap]
      rfl

/-- C6: the static fetch makes one initial attempt plus at most `retries`
further ones and returns the first success; between attempts it sleeps
`0.8 * 2 ^ attempt` plus a random offset bounded below `0.2`; and only after
every attempt has failed does it raise, carrying the last underlying
error. -/
theorem fetch_retry_spec (att : Nat → Except String (String × String)) (rand : Nat → ℚ)
    (retries : Nat) (hrand : ∀ i, 0 ≤ rand i ∧ rand i < 1) :
    (fetchModel att rand retries).attempts ≤ retries + 1
    ∧ (∀ (k : Nat) (v : String × String), k ≤ retries → att k = .ok v →
        (∀ j, j < k → ∀ w, att j ≠ .ok w) →
        fetchModel att rand retries
          = ⟨k + 1, (List.range k).map (sleepAmt rand), .ok v⟩)
    ∧ ((∀ j, j ≤ retries → ∀ w, att j ≠ .ok w) →
        ∃ e, att retries = .error e ∧ fetchModel att rand retries
          = ⟨retries + 1, (List.range retries).map (sleepAmt rand), .error (some e)⟩)
    ∧ (∀ i, 4/5 * 2 ^ i ≤ sleepAmt rand i ∧ sleepAmt rand i < 4/5 * 2 ^ i + 1/5) := by
  have hzmap : (fun j => sleepAmt rand (0 + j)) = sleepAmt rand := by
    funext j
    exact congrArg (sleepAmt rand) (Nat.zero_add j)
  refine ⟨?_, ?_, ?_, ?_⟩
  · exact fetchAux_attempts_le att rand (retries + 1) 0 none
  · intro k v hk hok hfail
    have h := fetchAux_success att rand k (retries + 1) 0 none v (by omega)
      (by rw [Nat.zero_add]; exact hok)
      (fun j hj w hw => hfail j hj w (by rwa [Nat.zero_add] at hw))
    unfold fetchModel
    rw [h, hzmap]
  · intro hfail
    obtain ⟨e, hatt, heq⟩ := fetchAux_allfail att rand (retries + 1) 0 none (by omega)
      (fun j hj w hw => hfail j (by omega) w (by rwa [Nat.zero_add] at hw))
    refine ⟨e, by rwa [Nat.zero_add] at hatt, ?_⟩
    unfold fetchModel
    rw [heq, hzmap]
    rfl
  · intro i
    obtain ⟨h0, h1⟩ := hrand i
    unfold sleepAmt
    constructor
    · nlinarith
    · nlinarith

/-- Witness for `fetch_retry_spec`: with one failure then a success, the
fetch makes two attempts, sleeps once, and returns the success. -/
theorem fetch_retry_spec_witness :
    (∀ i, 0 ≤ randW i ∧ randW i < 1)
    ∧ attW 1 = .ok ("html", "http://e/p")
    ∧ fetchModel attW randW 3
      = ⟨2, (List.range 1).map (sleepAmt randW), .ok ("html", "http://e/p")⟩ := by
  refine ⟨fun i => ⟨by norm_num [randW], by norm_num [randW]⟩, rfl, ?_⟩
  exact (fetch_retry_spec attW randW 3
      (fun i => ⟨by norm_num [randW], by norm_num [randW]⟩)).2.1
    1 ("html", "http://e/p") (by omega) rfl
    (fun j hj w hw => by
      interval_cases j
      simp [attW] at hw)

/-- C9: whenever the rendered strategy is active and the crawl loop exits —
normal completion, page budget reached, or an exception raised inside the
loop — the browser session is released exactly once, and the loop's outcome
(records and exception alike) is preserved across the cleanup. -/
theorem renderer_released_once (oracle : String → IterOut) (adm : String → Bool)
    (join : String → String → String) (maxPages fuel : Nat) (st : Frontier)
    (recs : List String)
    (hexit : crawlLoop oracle adm join maxPages fuel st recs ≠ CrawlOut.fuelOut) :
    (crawl_with_cleanup true oracle adm join maxPages fuel st recs).2 = 1
    ∧ (crawl_with_cleanup true oracle adm join maxPages fuel st recs).1
      = crawlLoop oracle adm join maxPages fuel st recs := by
  unfold crawl_with_cleanup rendererCloses
  cases hout : crawlLoop oracle adm join maxPages fuel st recs with
  | finished recs1 st1 => exact ⟨rfl, rfl⟩
  | raised e recs1 st1 => exact ⟨rfl, rfl⟩
  | fuelOut => exact absurd hout hexit

/-- Witness for `renderer_released_once`: a mid-crawl uncaught exception on
the first page still results in exactly one release, and the exception
propagates. -/
theorem renderer_released_once_witness :
    crawlLoop (fun _ => IterOut.raised "boom") (fun _ => true) (fun _ u => u) 10 5
        ⟨["http://a/x"], ["http://a/x"], ["http://a/x"]⟩ [] ≠ CrawlOut.fuelOut
    ∧ (crawl_with_cleanup true (fun _ => IterOut.raised "boom") (fun _ => true)
        (fun _ u => u) 10 5 ⟨["http://a/x"], ["http://a/x"], ["http://a/x"]⟩ []).2 = 1 := by
  refine ⟨by decide, ?_⟩
  exact (renderer_released_once (fun _ => IterOut.raised "boom") (fun _ => true)
    (fun _ u => u) 10 5 ⟨["http://a/x"], ["http://a/x"], ["http://a/x"]⟩ []
    (by decide)).1
